import Mathlib

/-!
Verification of the Dynamic-Task-Manager core structures.

The repository holds three Python files:
* `skip_list.py` — a skip list (`SkipList`) over totally ordered keys;
* `fibonacci_heap.py` — a Fibonacci heap (`FibonacciHeap`) restricted to
  `insert` / `extract_min`;
* `task_manager.py` — a coordinator (`TaskManager`) keeping one skip list
  (keyed by task name) and one heap (keyed by priority) over the same tasks.

The skip list is embedded through its tower representation: the state is the
level-0 chain of entries, each carrying the tower level drawn at insertion.
The level-`i` chain of the pointer structure is, by the tower property the
source maintains (a node is linked at exactly levels `0..lvl`), the
subsequence of entries whose level is at least `i`; the descent loops of
`insert` / `delete` / `search` are translated literally against these derived
chains, with the random level draw passed in as an explicit oracle argument.

The heap's circular doubly-linked rings are embedded as lists read off in
`right`-pointer order starting from the distinguished pointer (`min_node` for
the root ring, `child` for a child ring); `_add_node(x, r)`, which splices
`x` immediately to the right of `r`, becomes insertion directly after the
ring's head.  The unbounded `while degree_table[degree]` loop of
`_consolidate` is translated with an explicit fuel argument; the theorem for
the termination claim shows the fuel bound is never reached.
-/

namespace DTM

/-! ### Skip list (src/skip_list.py) -/

/-- One skip-list node: `key`, `value`, and the tower level drawn for it at
insertion time (`forward` has length `lvl + 1` in the source). -/
structure Entry (κ α : Type) where
  key : κ
  value : α
  lvl : Nat
deriving DecidableEq

/-- Skip-list state: configured maximum level, current level, and the level-0
chain after the header in forward order. -/
structure SkipList (κ α : Type) where
  maxLevel : Nat
  level : Nat
  elems : List (Entry κ α)
deriving DecidableEq

/-- `SkipList.__init__`: empty chain, current level 0. -/
def SkipList.empty (κ α : Type) (maxLevel : Nat) : SkipList κ α :=
  ⟨maxLevel, 0, []⟩

variable {κ α : Type} [LinearOrder κ]

/-- The level-`i` advance loop
`while current.forward[i] and current.forward[i].key < key: current = current.forward[i]`.
`s` is the remainder of the level-0 chain being scanned, `p` the absolute
index of its head, and `c` the cursor (the index just after the node the
descent currently stands on).  A node participates in the level-`i` chain
exactly when its tower level is at least `i`, so nodes with `e.lvl < i` are
skipped without moving the cursor. -/
def advanceAux (k : κ) (i : Nat) : List (Entry κ α) → Nat → Nat → Nat
  | [], c, _ => c
  | e :: s, c, p =>
    if i ≤ e.lvl then
      if e.key < k then advanceAux k i s (p + 1) (p + 1)
      else c
    else advanceAux k i s c (p + 1)

/-- Advance the cursor `c` along level `i` while the next level-`i` key is
strictly below `k`. -/
def advance (elems : List (Entry κ α)) (k : κ) (i c : Nat) : Nat :=
  advanceAux k i (elems.drop c) c c

/-- The descent `for i in range(self.level, -1, -1): ...` of
`insert`/`delete`/`search`, returning the final level-0 cursor
(`update[0]`, the splice / removal position). -/
def descendPos (elems : List (Entry κ α)) (k : κ) : Nat → Nat → Nat
  | 0, c => advance elems k 0 c
  | i + 1, c => descendPos elems k i (advance elems k (i + 1) c)

/-- `SkipList.search`: descend, then test whether the level-0 successor holds
the key. -/
def SkipList.search (sl : SkipList κ α) (k : κ) : Option α :=
  match sl.elems[descendPos sl.elems k sl.level 0]? with
  | some e => if e.key = k then some e.value else none
  | none => none

/-- `SkipList.insert`: descend, cap the drawn level at `max_level` (as
`random_level` does), raise the current level if needed, and splice the new
node in at the level-0 position found by the descent (the higher-level links
follow from the tower representation). -/
def SkipList.insert (sl : SkipList κ α) (k : κ) (v : α) (rlvl : Nat) :
    SkipList κ α :=
  let p := descendPos sl.elems k sl.level 0
  let lvl := min rlvl sl.maxLevel
  { sl with
    level := max sl.level lvl
    elems := sl.elems.take p ++ ⟨k, v, lvl⟩ :: sl.elems.drop p }

/-- The post-delete loop
`while self.level > 0 and self.header.forward[self.level] is None: self.level -= 1`:
the header's level-`l` link is empty exactly when no node has tower level
at least `l`. -/
def shrinkLevel (elems : List (Entry κ α)) : Nat → Nat
  | 0 => 0
  | l + 1 => if elems.any (fun e => l + 1 ≤ e.lvl) then l + 1 else shrinkLevel elems l

/-- `SkipList.delete`: descend; if the level-0 successor carries the key,
unlink it from every level it participates in and shrink the current level. -/
def SkipList.delete (sl : SkipList κ α) (k : κ) : SkipList κ α :=
  let p := descendPos sl.elems k sl.level 0
  match sl.elems[p]? with
  | some e =>
    if e.key = k then
      let elems2 := sl.elems.take p ++ sl.elems.drop (p + 1)
      { sl with elems := elems2, level := shrinkLevel elems2 sl.level }
    else sl
  | none => sl

/-- Keys along the level-0 chain, in traversal order. -/
def SkipList.keys (sl : SkipList κ α) : List κ := sl.elems.map Entry.key

/-- Values along the level-0 chain, in traversal order. -/
def SkipList.vals (sl : SkipList κ α) : List α := sl.elems.map Entry.value

/-- States reachable by any sequence of `insert` / `delete` calls from a
fresh skip list (arbitrary keys and level draws). -/
inductive SkipList.Reachable : SkipList κ α → Prop
  | empty (L : Nat) : SkipList.Reachable (SkipList.empty κ α L)
  | insert {sl : SkipList κ α} (k : κ) (v : α) (rlvl : Nat) :
      SkipList.Reachable sl → SkipList.Reachable (sl.insert k v rlvl)
  | delete {sl : SkipList κ α} (k : κ) :
      SkipList.Reachable sl → SkipList.Reachable (sl.delete k)

/-! #### Skip-list descent analysis

On a key-sorted chain the descent of `insert` / `delete` / `search` lands on
the first entry whose key is at least the target, whatever the tower levels:
higher levels only skip entries whose keys are strictly below the target. -/

/-- The entries the descent may still step over for target `k`. -/
def belowK (k : κ) (e : Entry κ α) : Bool := decide (e.key < k)

/-- Position of the first entry with key at least `k` (equivalently, the
number of leading entries with key below `k`). -/
def lowerIdx (elems : List (Entry κ α)) (k : κ) : Nat :=
  (elems.takeWhile (belowK k)).length

theorem advanceAux_of_ge (k : κ) (i : Nat) (s : List (Entry κ α)) :
    ∀ (c p : Nat), (∀ e ∈ s, ¬ e.key < k) → advanceAux k i s c p = c := by
  induction s with
  | nil => intro c p _; rfl
  | cons e s ih =>
    intro c p h
    have he : ¬ e.key < k := h e (by simp)
    unfold advanceAux
    by_cases hl : i ≤ e.lvl
    · simp [hl, he]
    · simp only [if_neg hl]
      exact ih c (p + 1) (fun x hx => h x (by simp [hx]))

theorem advanceAux_le (k : κ) (i : Nat) (t : List (Entry κ α)) :
    ∀ (d : List (Entry κ α)) (c p : Nat),
      (∀ e ∈ t, e.key < k) → (∀ e ∈ d, ¬ e.key < k) → c ≤ p →
      advanceAux k i (t ++ d) c p ≤ p + t.length := by
  induction t with
  | nil =>
    intro d c p _ hd hcp
    rw [List.nil_append, advanceAux_of_ge k i d c p hd]
    omega
  | cons e t ih =>
    intro d c p ht hd hcp
    have he : e.key < k := ht e (by simp)
    have ht2 : ∀ x ∈ t, x.key < k := fun x hx => ht x (by simp [hx])
    show advanceAux k i (e :: (t ++ d)) c p ≤ p + (e :: t).length
    unfold advanceAux
    by_cases hl : i ≤ e.lvl
    · simp only [if_pos hl, if_pos he]
      have := ih d (p + 1) (p + 1) ht2 hd le_rfl
      simp only [List.length_cons]
      omega
    · simp only [if_neg hl]
      have := ih d c (p + 1) ht2 hd (by omega)
      simp only [List.length_cons]
      omega

theorem advanceAux_zero (k : κ) (t : List (Entry κ α)) :
    ∀ (d : List (Entry κ α)) (p : Nat),
      (∀ e ∈ t, e.key < k) → (∀ e ∈ d, ¬ e.key < k) →
      advanceAux k 0 (t ++ d) p p = p + t.length := by
  induction t with
  | nil =>
    intro d p _ hd
    rw [List.nil_append, advanceAux_of_ge k 0 d p p hd]
    simp
  | cons e t ih =>
    intro d p ht hd
    have he : e.key < k := ht e (by simp)
    show advanceAux k 0 (e :: (t ++ d)) p p = p + (e :: t).length
    unfold advanceAux
    simp only [if_pos (Nat.zero_le _), if_pos he]
    rw [ih d (p + 1) (fun x hx => ht x (by simp [hx])) hd]
    simp only [List.length_cons]
    omega

/-- Entries in the leading `belowK` segment really are below `k`. -/
theorem takeWhile_below (elems : List (Entry κ α)) (k : κ) :
    ∀ e ∈ elems.takeWhile (belowK k), e.key < k := by
  intro e he
  have := List.mem_takeWhile_imp he
  simpa [belowK] using this

/-- On a sorted chain, every entry past the leading segment has key at least
`k`. -/
theorem dropWhile_ge (k : κ) (l : List (Entry κ α))
    (hs : List.Pairwise (fun a b : Entry κ α => a.key ≤ b.key) l) :
    ∀ e ∈ l.dropWhile (belowK k), ¬ e.key < k := by
  induction l with
  | nil => intro e he; simp [List.dropWhile] at he
  | cons a l ih =>
    intro e he
    rw [List.dropWhile] at he
    cases hb : belowK k a with
    | true =>
      simp only [hb] at he
      exact ih hs.of_cons e he
    | false =>
      simp only [hb] at he
      have ha : ¬ a.key < k := by simpa [belowK] using hb
      rcases List.mem_cons.mp he with rfl | he2
      · exact ha
      · have hle : a.key ≤ e.key := List.rel_of_pairwise_cons hs he2
        exact fun hlt => ha (lt_of_le_of_lt hle hlt)

/-- On a sorted chain, `advance` never moves the cursor past `lowerIdx`. -/
theorem advance_le (elems : List (Entry κ α)) (k : κ) (i : Nat)
    (hs : List.Pairwise (fun a b : Entry κ α => a.key ≤ b.key) elems)
    (c : Nat) (hc : c ≤ lowerIdx elems k) :
    advance elems k i c ≤ lowerIdx elems k := by
  have hsplit : elems.drop c =
      (elems.takeWhile (belowK k)).drop c ++ elems.dropWhile (belowK k) := by
    conv_lhs => rw [← List.takeWhile_append_dropWhile (p := belowK k) (l := elems)]
    rw [List.drop_append_of_le_length hc]
  unfold advance
  rw [hsplit]
  have h1 : ∀ e ∈ (elems.takeWhile (belowK k)).drop c, e.key < k := fun e he =>
    takeWhile_below elems k e (List.mem_of_mem_drop he)
  have h2 : ∀ e ∈ elems.dropWhile (belowK k), ¬ e.key < k := dropWhile_ge k elems hs
  have := advanceAux_le k i ((elems.takeWhile (belowK k)).drop c)
    (elems.dropWhile (belowK k)) c c h1 h2 le_rfl
  have hlen : ((elems.takeWhile (belowK k)).drop c).length =
      lowerIdx elems k - c := by
    rw [List.length_drop]; rfl
  omega

/-- On a sorted chain, the level-0 advance lands exactly on `lowerIdx`. -/
theorem advance_zero (elems : List (Entry κ α)) (k : κ)
    (hs : List.Pairwise (fun a b : Entry κ α => a.key ≤ b.key) elems)
    (c : Nat) (hc : c ≤ lowerIdx elems k) :
    advance elems k 0 c = lowerIdx elems k := by
  have hsplit : elems.drop c =
      (elems.takeWhile (belowK k)).drop c ++ elems.dropWhile (belowK k) := by
    conv_lhs => rw [← List.takeWhile_append_dropWhile (p := belowK k) (l := elems)]
    rw [List.drop_append_of_le_length hc]
  unfold advance
  rw [hsplit]
  have h1 : ∀ e ∈ (elems.takeWhile (belowK k)).drop c, e.key < k := fun e he =>
    takeWhile_below elems k e (List.mem_of_mem_drop he)
  have h2 : ∀ e ∈ elems.dropWhile (belowK k), ¬ e.key < k := dropWhile_ge k elems hs
  rw [advanceAux_zero k _ _ c h1 h2]
  have hlen : ((elems.takeWhile (belowK k)).drop c).length =
      lowerIdx elems k - c := by
    rw [List.length_drop]; rfl
  omega

/-- On a sorted chain the whole descent, from any level and any cursor not
past `lowerIdx`, ends at `lowerIdx`. -/
theorem descendPos_sorted (elems : List (Entry κ α)) (k : κ)
    (hs : List.Pairwise (fun a b : Entry κ α => a.key ≤ b.key) elems) (i : Nat) :
    ∀ c ≤ lowerIdx elems k, descendPos elems k i c = lowerIdx elems k := by
  induction i with
  | zero => intro c hc; exact advance_zero elems k hs c hc
  | succ i ih =>
    intro c hc
    exact ih (advance elems k (i + 1) c) (advance_le elems k (i + 1) hs c hc)

/-- The skip-list ordering invariant on a state. -/
def Ordered (sl : SkipList κ α) : Prop :=
  List.Pairwise (fun a b : Entry κ α => a.key ≤ b.key) sl.elems

/-- First-match lookup along the level-0 chain, stopping at the first entry
whose key is not below the target (the abstract behaviour of `search` on a
sorted chain). -/
def findVal : List (Entry κ α) → κ → Option α
  | [], _ => none
  | e :: s, k =>
    if e.key < k then findVal s k
    else if e.key = k then some e.value else none

theorem findVal_head (k : κ) (l : List (Entry κ α)) :
    findVal l k =
      match (l.dropWhile (belowK k)).head? with
      | some e => if e.key = k then some e.value else none
      | none => none := by
  induction l with
  | nil => rfl
  | cons e s ih =>
    rw [findVal, List.dropWhile]
    by_cases he : e.key < k
    · rw [if_pos he]
      have : belowK k e = true := by simpa [belowK] using he
      rw [this]
      exact ih
    · rw [if_neg he]
      have : belowK k e = false := by simpa [belowK] using he
      rw [this]
      rfl

theorem elems_getElem_lowerIdx (elems : List (Entry κ α)) (k : κ) :
    elems[lowerIdx elems k]? = (elems.dropWhile (belowK k)).head? := by
  conv_lhs => rw [← List.takeWhile_append_dropWhile (p := belowK k) (l := elems)]
  rw [List.getElem?_append_right (by simp [lowerIdx])]
  simp [lowerIdx, ← List.head?_eq_getElem?]

theorem search_eq_findVal (sl : SkipList κ α) (hs : Ordered sl) (k : κ) :
    sl.search k = findVal sl.elems k := by
  rw [SkipList.search, descendPos_sorted sl.elems k hs sl.level 0 (Nat.zero_le _),
    elems_getElem_lowerIdx, findVal_head]

theorem findVal_mid (k q : κ) (t : List (Entry κ α)) (x : Entry κ α)
    (d : List (Entry κ α)) (ht : ∀ e ∈ t, e.key < k)
    (hd : ∀ e ∈ d, ¬ e.key < k) (hx : x.key = k) :
    findVal (t ++ x :: d) q =
      if q = k then some x.value else findVal (t ++ d) q := by
  induction t with
  | nil =>
    simp only [List.nil_append, findVal]
    by_cases hq : q = k
    · subst hq
      rw [if_neg (by rw [hx]; exact lt_irrefl _), if_pos hx, if_pos rfl]
    · rw [if_neg hq]
      by_cases hlt : x.key < q
      · rw [if_pos hlt]
      · rw [if_neg hlt, if_neg (fun h => hq (h ▸ hx.symm).symm)]
        cases d with
        | nil => rfl
        | cons y d2 =>
          have hy : ¬ y.key < k := hd y (by simp)
          have hqk : q < k := by
            rcases lt_trichotomy q k with h | h | h
            · exact h
            · exact absurd h hq
            · exact absurd (hx ▸ h) hlt
          have h1 : ¬ y.key < q := fun h => hy (h.trans hqk)
          have h2 : y.key ≠ q := fun h => hy (h ▸ hqk)
          rw [findVal, if_neg h1, if_neg h2]
  | cons e t ih =>
    have he : e.key < k := ht e (by simp)
    have ht2 : ∀ y ∈ t, y.key < k := fun y hy => ht y (by simp [hy])
    by_cases h1 : e.key < q
    · simp only [List.cons_append, findVal, List.append_eq, if_pos h1]
      exact ih ht2
    · by_cases h2 : e.key = q
      · have hqk : q ≠ k := by
          intro h
          exact absurd ((h2.trans h) ▸ he) (lt_irrefl k)
        simp only [List.cons_append, findVal, List.append_eq, if_neg h1, if_pos h2,
          if_neg hqk]
      · have hqk : q ≠ k := by
          intro h
          subst h
          rcases lt_trichotomy e.key q with h3 | h3 | h3
          · exact h1 h3
          · exact h2 h3
          · exact absurd he (asymm h3)
        simp only [List.cons_append, findVal, List.append_eq, if_neg h1, if_neg h2,
          if_neg hqk]

theorem findVal_none_mid (k : κ) (t d : List (Entry κ α))
    (ht : ∀ e ∈ t, e.key < k) (hd : ∀ e ∈ d, k < e.key) :
    findVal (t ++ d) k = none := by
  induction t with
  | nil =>
    cases d with
    | nil => rfl
    | cons y d2 =>
      have hy := hd y (by simp)
      rw [List.nil_append, findVal, if_neg (asymm hy), if_neg (ne_of_gt hy)]
  | cons e t ih =>
    rw [List.cons_append, findVal, if_pos (ht e (by simp))]
    exact ih (fun y hy => ht y (by simp [hy]))

theorem findVal_absent (k : κ) (l : List (Entry κ α))
    (hk : k ∉ l.map Entry.key) : findVal l k = none := by
  induction l with
  | nil => rfl
  | cons e s ih =>
    simp only [List.map_cons, List.mem_cons, not_or] at hk
    rw [findVal]
    by_cases h1 : e.key < k
    · rw [if_pos h1]; exact ih hk.2
    · rw [if_neg h1, if_neg (fun h => hk.1 h.symm)]

theorem mem_of_getElem2 {β : Type} {l : List β} {n : Nat} {a : β}
    (h : l[n]? = some a) : a ∈ l := by
  rw [List.getElem?_eq_some] at h
  obtain ⟨hn, rfl⟩ := h
  exact List.getElem_mem hn

theorem take_lowerIdx (elems : List (Entry κ α)) (k : κ) :
    elems.take (lowerIdx elems k) = elems.takeWhile (belowK k) := by
  induction elems with
  | nil => rfl
  | cons e s ih =>
    rw [lowerIdx, List.takeWhile]
    cases hb : belowK k e
    · rfl
    · simpa [lowerIdx] using ih

theorem drop_lowerIdx (elems : List (Entry κ α)) (k : κ) :
    elems.drop (lowerIdx elems k) = elems.dropWhile (belowK k) := by
  induction elems with
  | nil => rfl
  | cons e s ih =>
    rw [lowerIdx, List.takeWhile, List.dropWhile]
    cases hb : belowK k e
    · rfl
    · simpa [lowerIdx] using ih

/-- On a sorted chain, `insert` splices the new entry exactly between the
entries strictly below the key and everything else (so in particular before
every existing entry with the same key). -/
theorem insert_elems_sorted (sl : SkipList κ α) (hs : Ordered sl) (k : κ)
    (v : α) (rlvl : Nat) :
    (sl.insert k v rlvl).elems =
      sl.elems.takeWhile (belowK k) ++
        ⟨k, v, min rlvl sl.maxLevel⟩ :: sl.elems.dropWhile (belowK k) := by
  simp only [SkipList.insert]
  rw [descendPos_sorted sl.elems k hs sl.level 0 (Nat.zero_le _), take_lowerIdx,
    drop_lowerIdx]

theorem insert_ordered (sl : SkipList κ α) (hs : Ordered sl) (k : κ) (v : α)
    (rlvl : Nat) : Ordered (sl.insert k v rlvl) := by
  rw [Ordered, insert_elems_sorted sl hs k v rlvl, List.pairwise_append]
  refine ⟨hs.sublist (List.takeWhile_sublist _), ?_, ?_⟩
  · rw [List.pairwise_cons]
    refine ⟨fun b hb => not_lt.mp (dropWhile_ge k sl.elems hs b hb), ?_⟩
    exact hs.sublist (List.dropWhile_sublist _)
  · intro a ha b hb
    have ha2 : a.key < k := takeWhile_below sl.elems k a ha
    rcases List.mem_cons.mp hb with rfl | hb2
    · exact le_of_lt ha2
    · exact le_trans (le_of_lt ha2) (not_lt.mp (dropWhile_ge k sl.elems hs b hb2))

theorem insert_search (sl : SkipList κ α) (hs : Ordered sl) (k : κ) (v : α)
    (rlvl : Nat) (q : κ) :
    (sl.insert k v rlvl).search q = if q = k then some v else sl.search q := by
  rw [search_eq_findVal _ (insert_ordered sl hs k v rlvl) q,
    insert_elems_sorted sl hs k v rlvl,
    findVal_mid k q _ _ _ (takeWhile_below sl.elems k) (dropWhile_ge k sl.elems hs)
      rfl,
    List.takeWhile_append_dropWhile, ← search_eq_findVal sl hs q]

theorem insert_keys_mem (sl : SkipList κ α) (hs : Ordered sl) (k : κ) (v : α)
    (rlvl : Nat) (q : κ) :
    q ∈ (sl.insert k v rlvl).keys ↔ q = k ∨ q ∈ sl.keys := by
  conv_rhs =>
    rw [SkipList.keys, ← List.takeWhile_append_dropWhile (p := belowK k)
      (l := sl.elems)]
  rw [SkipList.keys, insert_elems_sorted sl hs k v rlvl]
  simp only [List.map_append, List.map_cons, List.mem_append, List.mem_cons]
  tauto

theorem insert_elems_perm (sl : SkipList κ α) (hs : Ordered sl) (k : κ)
    (v : α) (rlvl : Nat) :
    List.Perm (sl.insert k v rlvl).elems
      ((⟨k, v, min rlvl sl.maxLevel⟩ : Entry κ α) :: sl.elems) := by
  rw [insert_elems_sorted sl hs k v rlvl]
  refine List.Perm.trans List.perm_middle ?_
  rw [List.takeWhile_append_dropWhile]

theorem insert_keys_nodup (sl : SkipList κ α) (hs : Ordered sl)
    (hnd : sl.keys.Nodup) (k : κ) (hk : k ∉ sl.keys) (v : α) (rlvl : Nat) :
    (sl.insert k v rlvl).keys.Nodup := by
  have hkeys : List.Perm (sl.insert k v rlvl).keys (k :: sl.keys) :=
    (insert_elems_perm sl hs k v rlvl).map Entry.key
  rw [hkeys.nodup_iff, List.nodup_cons]
  exact ⟨hk, hnd⟩

theorem delete_elems_sublist (sl : SkipList κ α) (k : κ) :
    List.Sublist (sl.delete k).elems sl.elems := by
  rw [SkipList.delete]
  split
  · split
    · show List.Sublist (sl.elems.take _ ++ sl.elems.drop _) sl.elems
      rw [← List.eraseIdx_eq_take_drop_succ]
      exact List.eraseIdx_sublist ..
    · exact List.Sublist.refl _
  · exact List.Sublist.refl _

theorem delete_ordered (sl : SkipList κ α) (k : κ) (hs : Ordered sl) :
    Ordered (sl.delete k) :=
  hs.sublist (delete_elems_sublist sl k)

theorem delete_keys_nodup (sl : SkipList κ α) (k : κ) (hnd : sl.keys.Nodup) :
    (sl.delete k).keys.Nodup :=
  hnd.sublist ((delete_elems_sublist sl k).map Entry.key)

theorem delete_absent (sl : SkipList κ α) (k : κ) (hk : k ∉ sl.keys) :
    sl.delete k = sl := by
  rw [SkipList.delete]
  split
  case h_1 e heq =>
    rw [if_neg fun h => hk (List.mem_map.mpr ⟨e, mem_of_getElem2 heq, h⟩)]
  case h_2 => rfl

theorem search_absent (sl : SkipList κ α) (k : κ) (hk : k ∉ sl.keys) :
    sl.search k = none := by
  rw [SkipList.search]
  split
  case h_1 e heq =>
    rw [if_neg fun h => hk (List.mem_map.mpr ⟨e, mem_of_getElem2 heq, h⟩)]
  case h_2 => rfl

theorem dropWhile_mem_head (sl : SkipList κ α) (hs : Ordered sl) (k : κ)
    (hk : k ∈ sl.keys) :
    ∃ x d, sl.elems.dropWhile (belowK k) = x :: d ∧ x.key = k := by
  obtain ⟨e, he, hek⟩ := List.mem_map.mp hk
  have hmem : e ∈ sl.elems.takeWhile (belowK k) ++ sl.elems.dropWhile (belowK k) := by
    rw [List.takeWhile_append_dropWhile]; exact he
  have hed : e ∈ sl.elems.dropWhile (belowK k) := by
    rcases List.mem_append.mp hmem with hT | hD
    · exact absurd (takeWhile_below sl.elems k e hT) (by rw [hek]; exact lt_irrefl k)
    · exact hD
  cases hD : sl.elems.dropWhile (belowK k) with
  | nil => rw [hD] at hed; exact absurd hed (List.not_mem_nil e)
  | cons x d =>
    refine ⟨x, d, rfl, ?_⟩
    have h1 : ¬ x.key < k :=
      dropWhile_ge k sl.elems hs x (by rw [hD]; exact List.mem_cons_self x d)
    rw [hD] at hed
    rcases List.mem_cons.mp hed with rfl | hed2
    · exact hek
    · have hp : List.Pairwise (fun a b : Entry κ α => a.key ≤ b.key) (x :: d) := by
        rw [← hD]; exact hs.sublist (List.dropWhile_sublist _)
      have h2 : x.key ≤ e.key := List.rel_of_pairwise_cons hp hed2
      exact le_antisymm (hek ▸ h2) (not_lt.mp h1)

theorem delete_elems_mem (sl : SkipList κ α) (hs : Ordered sl) (k : κ)
    (hk : k ∈ sl.keys) :
    ∃ x d, sl.elems.dropWhile (belowK k) = x :: d ∧ x.key = k ∧
      (sl.delete k).elems = sl.elems.takeWhile (belowK k) ++ d := by
  obtain ⟨x, d, hD, hxk⟩ := dropWhile_mem_head sl hs k hk
  refine ⟨x, d, hD, hxk, ?_⟩
  have hget : sl.elems[descendPos sl.elems k sl.level 0]? = some x := by
    rw [descendPos_sorted sl.elems k hs sl.level 0 (Nat.zero_le _),
      elems_getElem_lowerIdx, hD]
    rfl
  rw [SkipList.delete, hget]
  simp only [if_pos hxk]
  rw [descendPos_sorted sl.elems k hs sl.level 0 (Nat.zero_le _), take_lowerIdx]
  congr 1
  rw [← List.drop_drop, drop_lowerIdx, hD]
  simp

theorem delete_search (sl : SkipList κ α) (hs : Ordered sl)
    (hnd : sl.keys.Nodup) (k q : κ) :
    (sl.delete k).search q = if q = k then none else sl.search q := by
  by_cases hk : k ∈ sl.keys
  · obtain ⟨x, d, hD, hxk, hdel⟩ := delete_elems_mem sl hs k hk
    have hs2 : Ordered (sl.delete k) := delete_ordered sl k hs
    rw [search_eq_findVal _ hs2 q, hdel]
    have htw := takeWhile_below sl.elems k
    have hdw : ∀ e ∈ x :: d, ¬ e.key < k := by
      rw [← hD]; exact dropWhile_ge k sl.elems hs
    have hd2 : ∀ e ∈ d, ¬ e.key < k := fun e he => hdw e (List.mem_cons_of_mem x he)
    by_cases hq : q = k
    · subst hq
      rw [if_pos rfl]
      refine findVal_none_mid q _ _ htw ?_
      intro e he
      have h2 : e.key ≠ q := by
        have hkeys : sl.keys =
            (sl.elems.takeWhile (belowK q)).map Entry.key ++
              x.key :: d.map Entry.key := by
          rw [SkipList.keys]
          conv_lhs => rw [← List.takeWhile_append_dropWhile (p := belowK q)
            (l := sl.elems), hD]
          simp
        rw [hkeys] at hnd
        have := (List.nodup_append.mp hnd).2.1
        rw [List.nodup_cons] at this
        exact fun h => this.1 (hxk ▸ h ▸ List.mem_map.mpr ⟨e, he, rfl⟩)
      exact lt_of_le_of_ne (not_lt.mp (hd2 e he)) (Ne.symm h2)
    · rw [if_neg hq]
      have hmid := findVal_mid k q _ x d htw hd2 hxk
      rw [if_neg hq] at hmid
      rw [search_eq_findVal sl hs q]
      conv_rhs => rw [← List.takeWhile_append_dropWhile (p := belowK k)
        (l := sl.elems), hD]
      rw [hmid]
  · rw [delete_absent sl k hk]
    by_cases hq : q = k
    · subst hq
      rw [if_pos rfl]
      exact search_absent sl q hk
    · rw [if_neg hq]

/-- On a sorted chain, an absent key searches to `none` and a present key
searches to the value of the first entry carrying it. -/
theorem search_none_iff (sl : SkipList κ α) (hs : Ordered sl) (k : κ) :
    sl.search k = none ↔ k ∉ sl.keys := by
  constructor
  · intro hnone hk
    obtain ⟨x, d, hD, hxk⟩ := dropWhile_mem_head sl hs k hk
    rw [search_eq_findVal sl hs k, findVal_head, hD] at hnone
    simp only [List.head?_cons, if_pos hxk] at hnone
    exact Option.some_ne_none _ hnone
  · exact search_absent sl k

theorem reachable_ordered (sl : SkipList κ α) (hr : sl.Reachable) : Ordered sl := by
  induction hr with
  | empty L => exact List.Pairwise.nil
  | insert k v rlvl _ ih => exact insert_ordered _ ih k v rlvl
  | delete k _ ih => exact delete_ordered _ k ih

theorem takeWhile_mid {β : Type} (p : β → Bool) (t : List β) (y : β) (d : List β)
    (ht : ∀ e ∈ t, p e = true) (hy : p y = false) :
    (t ++ y :: d).takeWhile p = t ∧ (t ++ y :: d).dropWhile p = y :: d := by
  induction t with
  | nil => simp [List.takeWhile_cons, List.dropWhile_cons, hy]
  | cons a t ih =>
    have ha := ht a (by simp)
    have ih2 := ih (fun e he => ht e (by simp [he]))
    simp [List.takeWhile_cons, List.dropWhile_cons, ha, ih2.1, ih2.2]

/-- Build a skip list by inserting a batch of `(key, value, level-draw)`
triples in order. -/
def insertAll (ins : List (κ × α × Nat)) (sl : SkipList κ α) : SkipList κ α :=
  ins.foldl (fun s e => s.insert e.1 e.2.1 e.2.2) sl

/-- Delete a batch of keys in order. -/
def deleteAll (dels : List κ) (sl : SkipList κ α) : SkipList κ α :=
  dels.foldl (fun s k => s.delete k) sl

theorem insertAll_spec :
    ∀ (ins : List (κ × α × Nat)) (sl : SkipList κ α),
      Ordered sl → sl.keys.Nodup → (ins.map (fun e => e.1)).Nodup →
      (∀ e ∈ ins, e.1 ∉ sl.keys) →
      Ordered (insertAll ins sl) ∧ (insertAll ins sl).keys.Nodup ∧
        (∀ q, q ∈ (insertAll ins sl).keys ↔
          q ∈ ins.map (fun e => e.1) ∨ q ∈ sl.keys) ∧
        (∀ e ∈ ins, (insertAll ins sl).search e.1 = some e.2.1) ∧
        (∀ q, q ∉ ins.map (fun e => e.1) →
          (insertAll ins sl).search q = sl.search q) := by
  intro ins
  induction ins with
  | nil =>
    intro sl hs hnd _ _
    exact ⟨hs, hnd, fun q => by simp [insertAll], fun e he => absurd he
      (List.not_mem_nil e), fun q _ => rfl⟩
  | cons e ins ih =>
    intro sl hs hnd hnd2 hfresh
    have hek : e.1 ∉ sl.keys := hfresh e (by simp)
    have hs1 : Ordered (sl.insert e.1 e.2.1 e.2.2) := insert_ordered sl hs _ _ _
    have hnd1 : (sl.insert e.1 e.2.1 e.2.2).keys.Nodup :=
      insert_keys_nodup sl hs hnd e.1 hek e.2.1 e.2.2
    simp only [List.map_cons, List.nodup_cons] at hnd2
    have hfresh1 : ∀ x ∈ ins, x.1 ∉ (sl.insert e.1 e.2.1 e.2.2).keys := by
      intro x hx hmem
      rcases (insert_keys_mem sl hs e.1 e.2.1 e.2.2 x.1).mp hmem with h | h
      · exact hnd2.1 (h ▸ List.mem_map.mpr ⟨x, hx, rfl⟩)
      · exact hfresh x (by simp [hx]) h
    obtain ⟨o1, o2, o3, o4, o5⟩ :=
      ih (sl.insert e.1 e.2.1 e.2.2) hs1 hnd1 hnd2.2 hfresh1
    have hstep : insertAll (e :: ins) sl = insertAll ins (sl.insert e.1 e.2.1 e.2.2) := rfl
    refine ⟨hstep ▸ o1, hstep ▸ o2, ?_, ?_, ?_⟩
    · intro q
      rw [hstep, o3 q, insert_keys_mem sl hs e.1 e.2.1 e.2.2 q]
      simp only [List.map_cons, List.mem_cons]
      tauto
    · intro x hx
      rcases List.mem_cons.mp hx with rfl | hx2
      · rw [hstep, o5 x.1 hnd2.1, insert_search sl hs x.1 x.2.1 x.2.2 x.1,
          if_pos rfl]
      · exact hstep ▸ o4 x hx2
    · intro q hq
      simp only [List.map_cons, List.mem_cons, not_or] at hq
      rw [hstep, o5 q hq.2, insert_search sl hs e.1 e.2.1 e.2.2 q, if_neg hq.1]

theorem deleteAll_spec :
    ∀ (dels : List κ) (sl : SkipList κ α), Ordered sl → sl.keys.Nodup →
      Ordered (deleteAll dels sl) ∧ (deleteAll dels sl).keys.Nodup ∧
        (∀ q ∈ dels, (deleteAll dels sl).search q = none) ∧
        (∀ q, q ∉ dels → (deleteAll dels sl).search q = sl.search q) := by
  intro dels
  induction dels with
  | nil =>
    intro sl hs hnd
    exact ⟨hs, hnd, fun q hq => absurd hq (List.not_mem_nil q), fun q _ => rfl⟩
  | cons k dels ih =>
    intro sl hs hnd
    have hs1 : Ordered (sl.delete k) := delete_ordered sl k hs
    have hnd1 : (sl.delete k).keys.Nodup := delete_keys_nodup sl k hnd
    obtain ⟨o1, o2, o3, o4⟩ := ih (sl.delete k) hs1 hnd1
    have hstep : deleteAll (k :: dels) sl = deleteAll dels (sl.delete k) := rfl
    refine ⟨hstep ▸ o1, hstep ▸ o2, ?_, ?_⟩
    · intro q hq
      rcases List.mem_cons.mp hq with rfl | hq2
      · by_cases hq3 : q ∈ dels
        · exact hstep ▸ o3 q hq3
        · rw [hstep, o4 q hq3, delete_search sl hs hnd q q, if_pos rfl]
      · exact hstep ▸ o3 q hq2
    · intro q hq
      simp only [List.mem_cons, not_or] at hq
      rw [hstep, o4 q hq.2, delete_search sl hs hnd k q, if_neg hq.1]

/-! ### Pointer-level Fibonacci heap (src/fibonacci_heap.py)

The heap is embedded at the pointer level: nodes live in a store `nodes :
List (PNode α)` addressed by index (allocation appends), and `left`,
`right`, `parent`, `child` are indices.  Every Python assignment becomes one
store update, in the source's statement order, so stale pointers are
modelled exactly as the source leaves them.  The circular-list iterator
`_iterate_list` is a fueled walk returning `none` when it has not come back
to its head within the fuel; a walk that returns `none` for every fuel never
terminates. -/

structure PNode (α : Type) where
  key : Int
  value : α
  degree : Nat
  marked : Bool
  parent : Option Nat
  child : Option Nat
  left : Nat
  right : Nat
  deriving DecidableEq, Repr

variable [Inhabited α]

def nget (ns : List (PNode α)) (i : Nat) : PNode α :=
  ns.getD i ⟨0, default, 0, false, none, none, 0, 0⟩

def modifyNode (ns : List (PNode α)) (i : Nat) (f : PNode α → PNode α) :
    List (PNode α) :=
  ns.set i (f (nget ns i))

/-- `_add_node(node, root)`: the four assignments of lines 48-51, staged. -/
def pAddNode (ns : List (PNode α)) (node root : Nat) : List (PNode α) :=
  let ns1 := modifyNode ns node fun n => { n with left := root }
  let ns2 := modifyNode ns1 node fun n => { n with right := (nget ns1 root).right }
  let ns3 := modifyNode ns2 root fun n => { n with right := node }
  modifyNode ns3 (nget ns3 node).right fun n => { n with left := node }

/-- `_remove_node(node)`: rewires only the neighbours; the removed node
keeps its own (now stale) `left`/`right`. -/
def pRemoveNode (ns : List (PNode α)) (node : Nat) : List (PNode α) :=
  let ns1 := modifyNode ns (nget ns node).left
    fun n => { n with right := (nget ns node).right }
  modifyNode ns1 (nget ns1 node).right fun n => { n with left := (nget ns1 node).left }

/-- `_iterate_list(head)`: walk `right` pointers from `head`, stopping when
the walk returns to `head`; `none` when that does not happen within `fuel`
steps. -/
def pIterateAux (ns : List (PNode α)) (head : Nat) : Nat → Nat → Option (List Nat)
  | 0, _ => none
  | fuel + 1, cur =>
    let nxt := (nget ns cur).right
    if nxt = head then some [cur]
    else (pIterateAux ns head fuel nxt).map (cur :: ·)

def pIterate (ns : List (PNode α)) (head fuel : Nat) : Option (List Nat) :=
  pIterateAux ns head fuel head

/-- `_link(node, root)`: remove `node` from its list, parent it under
`root`, splice into the child list (or set as sole child — without closing
its ring), bump the degree, clear the mark. -/
def pLink (ns : List (PNode α)) (node root : Nat) : List (PNode α) :=
  let ns1 := pRemoveNode ns node
  let ns2 := modifyNode ns1 node fun n => { n with parent := some root }
  let ns3 :=
    match (nget ns2 root).child with
    | none => modifyNode ns2 root fun n => { n with child := some node }
    | some c => pAddNode ns2 node c
  let ns4 := modifyNode ns3 root fun n => { n with degree := n.degree + 1 }
  modifyNode ns4 node fun n => { n with marked := false }

/-- `_consolidate`'s inner `while degree_table[degree]` loop, fueled. -/
def pMeldLoop :
    Nat → List (PNode α) → List (Option Nat) → Nat → Nat →
      Option (List (PNode α) × List (Option Nat) × Nat × Nat)
  | 0, _, _, _, _ => none
  | fuel + 1, ns, table, node, d =>
    match table.getD d none with
    | none => some (ns, table, node, d)
    | some o2 =>
      let node2 := if (nget ns node).key > (nget ns o2).key then o2 else node
      let other := if (nget ns node).key > (nget ns o2).key then node else o2
      pMeldLoop fuel (pLink ns other node2) (table.set d none) node2 (d + 1)

/-- `_consolidate`'s `for node in nodes` loop over the snapshot of the root
ring. -/
def pMeldNodes (fuel : Nat) :
    List Nat → List (PNode α) → List (Option Nat) →
      Option (List (PNode α) × List (Option Nat))
  | [], ns, table => some (ns, table)
  | nid :: rest, ns, table =>
    match pMeldLoop fuel ns table nid (nget ns nid).degree with
    | none => none
    | some (ns2, t2, nid2, d2) => pMeldNodes fuel rest ns2 (t2.set d2 (some nid2))

/-- `_consolidate`'s rebuild loop (lines 101-109): re-splices each surviving
table entry next to the current minimum — even though it is still inside the
existing ring. -/
def pRebuild :
    List (Option Nat) → List (PNode α) → Option Nat →
      List (PNode α) × Option Nat
  | [], ns, m => (ns, m)
  | none :: rest, ns, m => pRebuild rest ns m
  | some nid :: rest, ns, m =>
    match m with
    | none => pRebuild rest ns (some nid)
    | some mid =>
      let ns2 := pAddNode ns nid mid
      pRebuild rest ns2
        (if (nget ns2 nid).key < (nget ns2 mid).key then some nid else some mid)

structure PHeap (α : Type) where
  nodes : List (PNode α)
  min_node : Option Nat
  total_nodes : Nat
  deriving DecidableEq, Repr

def PHeap.empty : PHeap α := ⟨[], none, 0⟩

def pConsolidate (h : PHeap α) (fuel : Nat) : Option (PHeap α) :=
  match h.min_node with
  | none => some h
  | some m =>
    match pIterate h.nodes m fuel with
    | none => none
    | some roots =>
      match pMeldNodes fuel roots h.nodes
          (List.replicate (h.total_nodes + 1) none) with
      | none => none
      | some (ns2, table2) =>
        let r := pRebuild table2 ns2 none
        some ⟨r.1, r.2, h.total_nodes⟩

def PHeap.insert (h : PHeap α) (key : Int) (value : α) : PHeap α :=
  let nid := h.nodes.length
  let ns0 := h.nodes ++ [⟨key, value, 0, false, none, none, nid, nid⟩]
  match h.min_node with
  | none => ⟨ns0, some nid, h.total_nodes + 1⟩
  | some m =>
    let ns2 := pAddNode ns0 nid m
    ⟨ns2, if key < (nget ns2 m).key then some nid else some m, h.total_nodes + 1⟩

def PHeap.extract_min (h : PHeap α) (fuel : Nat) :
    Option (Option Nat × PHeap α) :=
  match h.min_node with
  | none => some (none, h)
  | some m =>
    match
      (match (nget h.nodes m).child with
       | none => some h.nodes
       | some c =>
         match pIterate h.nodes c fuel with
         | none => none
         | some children =>
           some (children.foldl
             (fun ns ch =>
               modifyNode (pAddNode ns ch m) ch fun n => { n with parent := none })
             h.nodes)) with
    | none => none
    | some ns1 =>
      let ns2 := pRemoveNode ns1 m
      if (nget ns2 m).right = m then
        some (some m, ⟨ns2, none, h.total_nodes - 1⟩)
      else
        match pConsolidate ⟨ns2, some ((nget ns2 m).right), h.total_nodes⟩ fuel with
        | none => none
        | some h2 => some (some m, ⟨h2.nodes, h2.min_node, h.total_nodes - 1⟩)

/-- Heap states reachable by completed `insert`/`extract_min` calls. -/
inductive PReachable : PHeap α → Prop
  | empty : PReachable PHeap.empty
  | insert (h : PHeap α) (k : Int) (v : α) :
      PReachable h → PReachable (h.insert k v)
  | extract (h : PHeap α) (fuel : Nat) (r : Option Nat) (h2 : PHeap α) :
      PReachable h → h.extract_min fuel = some (r, h2) → PReachable h2

/-! #### Concrete traces -/

def pScenario3 : PHeap Unit := ((PHeap.empty.insert 1 ()).insert 2 ()).insert 3 ()
def pScenario4 : PHeap Unit := pScenario3.insert 4 ()
def pScenario5 : PHeap String :=
  ((((PHeap.empty.insert 5 "A").insert 3 "B").insert 4 "C").insert 2 "D").insert 3 "E"
def pTie : PHeap String := ((PHeap.empty.insert 0 "r").insert 1 "A").insert 1 "B"

def pAfterOne : PHeap Unit :=
  ⟨[⟨1, (), 0, false, none, none, 1, 2⟩,
    ⟨2, (), 1, false, none, some 2, 1, 1⟩,
    ⟨3, (), 0, false, some 1, none, 1, 1⟩], some 1, 2⟩

def pAfterFour : PHeap Unit :=
  ⟨[⟨1, (), 0, false, none, none, 1, 3⟩,
    ⟨2, (), 0, false, none, none, 2, 2⟩,
    ⟨3, (), 1, false, none, some 3, 2, 2⟩,
    ⟨4, (), 0, false, some 2, none, 1, 2⟩], some 1, 3⟩

def pAfter5 : PHeap String :=
  ⟨[⟨5, "A", 0, false, some 1, none, 4, 4⟩,
    ⟨3, "B", 2, false, none, some 0, 4, 1⟩,
    ⟨4, "C", 0, false, some 4, none, 4, 0⟩,
    ⟨2, "D", 0, false, none, none, 1, 4⟩,
    ⟨3, "E", 1, false, some 1, some 2, 0, 1⟩], some 1, 4⟩

def pTieAfter : PHeap String :=
  ⟨[⟨0, "r", 0, false, none, none, 1, 2⟩,
    ⟨1, "A", 1, false, none, some 2, 1, 1⟩,
    ⟨1, "B", 0, false, some 1, none, 1, 1⟩], some 1, 2⟩

theorem pAfterOne_eval : pScenario3.extract_min 9 = some (some 0, pAfterOne) := by
  decide

theorem pAfterFour_eval : pScenario4.extract_min 9 = some (some 0, pAfterFour) := by
  decide

theorem pAfter5_eval : pScenario5.extract_min 19 = some (some 3, pAfter5) := by
  decide

theorem pTieAfter_eval : pTie.extract_min 19 = some (some 0, pTieAfter) := by
  decide

/-! #### Divergent walks -/

theorem pIterateAux_stuck (ns : List (PNode α)) (head c : Nat)
    (h1 : (nget ns c).right = c) (h2 : c ≠ head) :
    ∀ fuel, pIterateAux ns head fuel c = none := by
  intro fuel
  induction fuel with
  | zero => rfl
  | succ k ih =>
    show (if (nget ns c).right = head then some [c]
      else (pIterateAux ns head k ((nget ns c).right)).map (c :: ·)) = none
    rw [h1, if_neg h2, ih]
    rfl

theorem pIterateAux_hop (ns : List (PNode α)) (head a b : Nat)
    (hab : (nget ns a).right = b) (hb : b ≠ head)
    (hstuck : ∀ k, pIterateAux ns head k b = none) :
    ∀ k, pIterateAux ns head k a = none := by
  intro k
  cases k with
  | zero => rfl
  | succ j =>
    show (if (nget ns a).right = head then some [a]
      else (pIterateAux ns head j ((nget ns a).right)).map (a :: ·)) = none
    rw [hab, if_neg hb, hstuck j]
    rfl

theorem pExtract_none_of_child_walk (h : PHeap α) (m c : Nat) (fuel : Nat)
    (hm : h.min_node = some m) (hc : (nget h.nodes m).child = some c)
    (hit : pIterate h.nodes c fuel = none) :
    h.extract_min fuel = none := by
  unfold PHeap.extract_min
  rw [hm]
  simp only [hc, hit]

/-! #### Store-update lemmas -/

theorem getD_set_self2 {β : Type} :
    ∀ (l : List β) (i : Nat) (x d : β), i < l.length →
      (l.set i x).getD i d = x
  | _ :: _, 0, _, _, _ => rfl
  | _ :: l, i + 1, x, d, h => getD_set_self2 l i x d (by simpa using h)

theorem getD_set_other2 {β : Type} :
    ∀ (l : List β) (i j : Nat) (x d : β), i ≠ j →
      (l.set i x).getD j d = l.getD j d
  | [], _, _, _, _, _ => rfl
  | _ :: _, 0, 0, _, _, h => absurd rfl h
  | _ :: _, 0, _ + 1, _, _, _ => rfl
  | _ :: _, _ + 1, 0, _, _, _ => rfl
  | _ :: l, i + 1, j + 1, x, d, h =>
    getD_set_other2 l i j x d (fun he => h (by rw [he]))

theorem set_of_ge {β : Type} :
    ∀ (l : List β) (i : Nat) (x : β), l.length ≤ i → l.set i x = l
  | [], _, _, _ => rfl
  | _ :: _, 0, _, h => absurd h (by simp)
  | a :: l, i + 1, x, h => by
    show a :: l.set i x = a :: l
    rw [set_of_ge l i x (by simpa using h)]

theorem modifyNode_length (ns : List (PNode α)) (i : Nat) (f : PNode α → PNode α) :
    (modifyNode ns i f).length = ns.length := by
  unfold modifyNode
  exact List.length_set ns i _

theorem nget_modify_self (ns : List (PNode α)) (i : Nat) (f : PNode α → PNode α)
    (h : i < ns.length) : nget (modifyNode ns i f) i = f (nget ns i) :=
  getD_set_self2 ns i _ _ h

theorem nget_modify_other (ns : List (PNode α)) (i j : Nat) (f : PNode α → PNode α)
    (h : i ≠ j) : nget (modifyNode ns i f) j = nget ns j :=
  getD_set_other2 ns i j _ _ h

theorem modifyNode_of_ge (ns : List (PNode α)) (i : Nat) (f : PNode α → PNode α)
    (h : ns.length ≤ i) : modifyNode ns i f = ns :=
  set_of_ge ns i _ h

/-- The fields a `with left := _` / `with right := _` update keeps. -/
def sameCore (a b : PNode α) : Prop :=
  a.key = b.key ∧ a.value = b.value ∧ a.degree = b.degree ∧
    a.marked = b.marked ∧ a.parent = b.parent ∧ a.child = b.child

theorem sameCore_refl (a : PNode α) : sameCore a a :=
  ⟨rfl, rfl, rfl, rfl, rfl, rfl⟩

theorem sameCore_trans {a b c : PNode α} (h1 : sameCore a b) (h2 : sameCore b c) :
    sameCore a c := by
  obtain ⟨k1, v1, d1, m1, p1, c1⟩ := h1
  obtain ⟨k2, v2, d2, m2, p2, c2⟩ := h2
  exact ⟨k1.trans k2, v1.trans v2, d1.trans d2, m1.trans m2, p1.trans p2, c1.trans c2⟩

theorem nget_modify_core (ns : List (PNode α)) (i j : Nat) (f : PNode α → PNode α)
    (hf : ∀ n : PNode α, sameCore (f n) n) :
    sameCore (nget (modifyNode ns i f) j) (nget ns j) := by
  by_cases hij : i = j
  · subst hij
    by_cases hl : i < ns.length
    · rw [nget_modify_self ns i f hl]
      exact hf _
    · rw [modifyNode_of_ge ns i f (le_of_not_lt hl)]
      exact sameCore_refl _
  · rw [nget_modify_other ns i j f hij]
    exact sameCore_refl _

theorem pAddNode_core (ns : List (PNode α)) (node root j : Nat) :
    sameCore (nget (pAddNode ns node root) j) (nget ns j) := by
  unfold pAddNode
  refine sameCore_trans (nget_modify_core _ _ _ _ ?_)
    (sameCore_trans (nget_modify_core _ _ _ _ ?_)
      (sameCore_trans (nget_modify_core _ _ _ _ ?_)
        (nget_modify_core _ _ _ _ ?_))) <;>
    exact fun n => ⟨rfl, rfl, rfl, rfl, rfl, rfl⟩

theorem pAddNode_length (ns : List (PNode α)) (node root : Nat) :
    (pAddNode ns node root).length = ns.length := by
  unfold pAddNode
  simp only [modifyNode_length]

theorem nget_modify_right (ns : List (PNode α)) (i j : Nat) (f : PNode α → PNode α)
    (hf : ∀ n : PNode α, (f n).right = n.right) :
    (nget (modifyNode ns i f) j).right = (nget ns j).right := by
  by_cases hij : i = j
  · subst hij
    by_cases hl : i < ns.length
    · rw [nget_modify_self ns i f hl]
      exact hf _
    · rw [modifyNode_of_ge ns i f (le_of_not_lt hl)]
  · rw [nget_modify_other ns i j f hij]

theorem nget_modify_parent (ns : List (PNode α)) (i j : Nat) (f : PNode α → PNode α)
    (hf : ∀ n : PNode α, (f n).parent = n.parent) :
    (nget (modifyNode ns i f) j).parent = (nget ns j).parent := by
  by_cases hij : i = j
  · subst hij
    by_cases hl : i < ns.length
    · rw [nget_modify_self ns i f hl]
      exact hf _
    · rw [modifyNode_of_ge ns i f (le_of_not_lt hl)]
  · rw [nget_modify_other ns i j f hij]

/-- Rights after `_add_node`: `root.right = node`, `node.right` = the old
`root.right`, everything else unchanged. -/
theorem pAddNode_right (ns : List (PNode α)) (node root j : Nat)
    (hroot : root < ns.length) (hnode : node < ns.length) (hne : node ≠ root) :
    (nget (pAddNode ns node root) j).right =
      if j = root then node
      else if j = node then (nget ns root).right
      else (nget ns j).right := by
  unfold pAddNode
  refine Eq.trans (nget_modify_right _ _ _ _ fun n => rfl) ?_
  by_cases hjr : j = root
  · subst hjr
    rw [nget_modify_self _ _ _
      (by rw [modifyNode_length, modifyNode_length]; exact hroot)]
    simp
  · rw [nget_modify_other _ _ _ _ (Ne.symm hjr)]
    by_cases hjn : j = node
    · subst hjn
      rw [nget_modify_self _ _ _ (by rw [modifyNode_length]; exact hnode)]
      rw [nget_modify_other _ _ _ _ hne]
      simp [hjr]
    · rw [nget_modify_other _ _ _ _ (Ne.symm hjn),
        nget_modify_other _ _ _ _ (Ne.symm hjn)]
      simp [hjr, hjn]

/-! #### Well-formed rings

`pathB ns l stop` says the `right` pointers realize the path `l` and the
last one points at `stop`; `RingB ns c` closes the path into a ring at its
own head.  A heap built by inserts alone keeps its root ring well formed;
these notions let `pIterate` be evaluated on such heaps. -/

def pathB (ns : List (PNode α)) : List Nat → Nat → Bool
  | [], _ => true
  | [x], stop => (nget ns x).right == stop
  | x :: y :: rest, stop => ((nget ns x).right == y) && pathB ns (y :: rest) stop

def RingB (ns : List (PNode α)) (c : List Nat) : Bool :=
  match c with
  | [] => false
  | x :: _ => pathB ns c x

theorem pathB_congr (ns ns2 : List (PNode α)) (stop : Nat) :
    ∀ l : List Nat, (∀ x ∈ l, (nget ns2 x).right = (nget ns x).right) →
      pathB ns2 l stop = pathB ns l stop
  | [], _ => rfl
  | [x], h => by
    show ((nget ns2 x).right == stop) = ((nget ns x).right == stop)
    rw [h x (List.mem_singleton.mpr rfl)]
  | x :: y :: rest, h => by
    show (((nget ns2 x).right == y) && pathB ns2 (y :: rest) stop) = _
    rw [h x (List.mem_cons_self _ _),
      pathB_congr ns ns2 stop (y :: rest) (fun z hz => h z (List.mem_cons_of_mem _ hz))]
    rfl

theorem pathB_append_singleton (ns : List (PNode α)) (stop z : Nat) :
    ∀ l : List Nat,
      pathB ns (l ++ [z]) stop = (pathB ns l z && ((nget ns z).right == stop))
  | [] => by
    show pathB ns [z] stop = (true && ((nget ns z).right == stop))
    rw [Bool.true_and]
    rfl
  | [x] => by
    show (((nget ns x).right == z) && pathB ns [z] stop) = _
    rfl
  | x :: y :: rest => by
    show (((nget ns x).right == y) && pathB ns ((y :: rest) ++ [z]) stop) = _
    rw [pathB_append_singleton ns stop z (y :: rest), ← Bool.and_assoc]
    rfl

theorem pathB_iterate (ns : List (PNode α)) (head : Nat) :
    ∀ (l : List Nat) (cur fuel : Nat), pathB ns (cur :: l) head = true →
      head ∉ l → l.length + 1 ≤ fuel →
      pIterateAux ns head fuel cur = some (cur :: l) := by
  intro l
  induction l with
  | nil =>
    intro cur fuel hp _ hf
    cases fuel with
    | zero => exact absurd hf (by simp)
    | succ f =>
      have hr : (nget ns cur).right = head := by
        have : ((nget ns cur).right == head) = true := hp
        exact beq_iff_eq.mp this
      show (if (nget ns cur).right = head then some [cur]
        else (pIterateAux ns head f ((nget ns cur).right)).map (cur :: ·)) = some [cur]
      rw [if_pos hr]
  | cons y rest ih =>
    intro cur fuel hp hh hf
    cases fuel with
    | zero => exact absurd hf (by simp)
    | succ f =>
      have hsplit : (((nget ns cur).right == y) && pathB ns (y :: rest) head) = true := hp
      have h1 : (nget ns cur).right = y :=
        beq_iff_eq.mp (Bool.and_elim_left hsplit)
      have h2 : pathB ns (y :: rest) head = true := Bool.and_elim_right hsplit
      have hyh : y ≠ head := fun he => hh (he ▸ List.mem_cons_self _ _)
      have hh2 : head ∉ rest := fun he => hh (List.mem_cons_of_mem _ he)
      show (if (nget ns cur).right = head then some [cur]
        else (pIterateAux ns head f ((nget ns cur).right)).map (cur :: ·)) =
          some (cur :: y :: rest)
      rw [h1, if_neg (fun he => hyh he),
        ih y f h2 hh2 (by exact Nat.lt_succ_iff.mp (Nat.lt_of_lt_of_le (Nat.lt_succ_self _) hf))]
      rfl

theorem ring_iterate (ns : List (PNode α)) (x : Nat) (rest : List Nat)
    (hr : RingB ns (x :: rest) = true) (hnd : (x :: rest).Nodup) (fuel : Nat)
    (hf : rest.length + 1 ≤ fuel) :
    pIterate ns x fuel = some (x :: rest) := by
  have hx : x ∉ rest := by
    have := List.nodup_cons.mp hnd
    exact this.1
  exact pathB_iterate ns x rest x fuel hr hx hf

theorem pathB_cons (ns : List (PNode α)) (x stop : Nat) (tail : List Nat)
    (hx : (nget ns x).right = tail.headD stop) (ht : pathB ns tail stop = true) :
    pathB ns (x :: tail) stop = true := by
  cases tail with
  | nil =>
    show ((nget ns x).right == stop) = true
    rw [hx]
    exact beq_self_eq_true _
  | cons t t' =>
    show (((nget ns x).right == t) && pathB ns (t :: t') stop) = true
    rw [hx]
    show ((t == t) && pathB ns (t :: t') stop) = true
    rw [beq_self_eq_true, Bool.true_and]
    exact ht

theorem pathB_cons_elim (ns : List (PNode α)) (x stop : Nat) (tail : List Nat)
    (h : pathB ns (x :: tail) stop = true) :
    (nget ns x).right = tail.headD stop ∧ pathB ns tail stop = true := by
  cases tail with
  | nil => exact ⟨beq_iff_eq.mp h, rfl⟩
  | cons t t' =>
    have h2 : (((nget ns x).right == t) && pathB ns (t :: t') stop) = true := h
    exact ⟨beq_iff_eq.mp (Bool.and_elim_left h2), Bool.and_elim_right h2⟩

/-! #### Reading the heap's reachable items

`pHeapItems` collects `(key, value)` of every node reachable from the root
ring through child lists, with fuel for the ring walks. -/

def pRootIds (h : PHeap α) (fuel : Nat) : Option (List Nat) :=
  match h.min_node with
  | none => some []
  | some m => pIterate h.nodes m fuel

def pItemsList (ns : List (PNode α)) : Nat → List Nat → Option (List (Int × α))
  | _, [] => some []
  | 0, _ :: _ => none
  | fuel + 1, nid :: rest =>
    match (match (nget ns nid).child with
           | none => some []
           | some c => pIterate ns c fuel) with
    | none => none
    | some cs =>
      match pItemsList ns fuel (cs ++ rest) with
      | none => none
      | some items => some (((nget ns nid).key, (nget ns nid).value) :: items)

def pHeapItems (h : PHeap α) (fuel : Nat) : Option (List (Int × α)) :=
  match pRootIds h fuel with
  | none => none
  | some roots => pItemsList h.nodes fuel roots

theorem pItemsList_nochild (ns : List (PNode α)) :
    ∀ (ids : List Nat) (fuel : Nat), ids.length ≤ fuel →
      (∀ x ∈ ids, (nget ns x).child = none) →
      pItemsList ns fuel ids =
        some (ids.map fun i => ((nget ns i).key, (nget ns i).value)) := by
  intro ids
  induction ids with
  | nil =>
    intro fuel _ _
    cases fuel with
    | zero => rfl
    | succ f => rfl
  | cons x rest ih =>
    intro fuel hf hc
    cases fuel with
    | zero => exact absurd hf (by simp)
    | succ f =>
      have hcx : (nget ns x).child = none := hc x (List.mem_cons_self _ _)
      show (match (match (nget ns x).child with
             | none => some []
             | some c => pIterate ns c f) with
        | none => none
        | some cs =>
          match pItemsList ns f (cs ++ rest) with
          | none => none
          | some items => some (((nget ns x).key, (nget ns x).value) :: items)) =
          some ((x :: rest).map fun i => ((nget ns i).key, (nget ns i).value))
      rw [hcx]
      show (match pItemsList ns f ([] ++ rest) with
        | none => none
        | some items => some (((nget ns x).key, (nget ns x).value) :: items)) = _
      rw [List.nil_append,
        ih f (Nat.le_of_succ_le_succ hf) (fun z hz => hc z (List.mem_cons_of_mem _ hz))]
      rfl

/-! #### The insert-only invariant -/

theorem nget_lt (ns : List (PNode α)) (j : Nat) (h : j < ns.length) :
    nget ns j = ns[j] := by
  unfold nget
  exact List.getD_eq_getElem ns _ h

theorem nget_append_lt (x : PNode α) :
    ∀ (ns : List (PNode α)) (j : Nat), j < ns.length →
      nget (ns ++ [x]) j = nget ns j
  | _ :: _, 0, _ => rfl
  | a :: ns, j + 1, h => nget_append_lt x ns j (by simpa using h)

theorem nget_append_len (x : PNode α) :
    ∀ ns : List (PNode α), nget (ns ++ [x]) ns.length = x
  | [] => rfl
  | _ :: ns => nget_append_len x ns

theorem map_kv_core (ns ns2 : List (PNode α)) (hlen : ns2.length = ns.length)
    (hc : ∀ j, sameCore (nget ns2 j) (nget ns j)) :
    ns2.map (fun n => (n.key, n.value)) = ns.map (fun n => (n.key, n.value)) := by
  apply List.ext_getElem (by simp [hlen])
  intro i h1 h2
  simp only [List.getElem_map]
  have hii := hc i
  rw [nget_lt ns2 i (by simpa using h1), nget_lt ns i (by simpa using h2)] at hii
  rw [hii.1, hii.2.1]

/-- The state of a heap built by `insert` calls alone: `l` lists the
inserted `(key, value)` pairs in allocation order, no node has children, and
the root ring is a well-formed cycle over all nodes. -/
def InsOnly (h : PHeap α) (l : List (Int × α)) : Prop :=
  h.nodes.map (fun n => (n.key, n.value)) = l ∧
  h.total_nodes = l.length ∧
  (∀ j, j < h.nodes.length → (nget h.nodes j).child = none) ∧
  (match h.min_node with
   | none => h.nodes = []
   | some m => ∃ c : List Nat, c.head? = some m ∧ RingB h.nodes c = true ∧
       c.Nodup ∧ List.Perm c (List.range h.nodes.length))

theorem insOnly_empty : InsOnly (PHeap.empty : PHeap α) [] :=
  ⟨rfl, rfl, fun j h => absurd h (by simp [PHeap.empty]), rfl⟩

theorem insOnly_insert (h : PHeap α) (l : List (Int × α)) (k : Int) (v : α)
    (hio : InsOnly h l) : InsOnly (h.insert k v) (l ++ [(k, v)]) := by
  obtain ⟨hmap, htot, hchild, hring⟩ := hio
  have hlen : h.nodes.length = l.length := by rw [← hmap, List.length_map]
  cases hm : h.min_node with
  | none =>
    have hnil : h.nodes = [] := by rw [hm] at hring; exact hring
    have hl0 : l = [] := by rw [← hmap, hnil]; rfl
    have hins : h.insert k v =
        ⟨h.nodes ++ [⟨k, v, 0, false, none, none, h.nodes.length, h.nodes.length⟩],
          some h.nodes.length, h.total_nodes + 1⟩ := by
      unfold PHeap.insert
      rw [hm]
    rw [hins, hnil, hl0]
    refine ⟨rfl, by rw [htot, hl0]; rfl, ?_, ?_⟩
    · intro j hj
      have : j = 0 := by simpa using Nat.lt_one_iff.mp (by simpa using hj)
      subst this
      rfl
    · refine ⟨[0], rfl, rfl, by simp, ?_⟩
      have hr1 : List.range 1 = [0] := by decide
      show List.Perm [0] (List.range 1)
      rw [hr1]
  | some m =>
    -- facts about the old ring
    rw [hm] at hring
    obtain ⟨c, hhead, hrb, hnd, hperm⟩ := hring
    obtain ⟨tail, rfl⟩ : ∃ tail, c = m :: tail := by
      cases c with
      | nil => exact absurd hhead (by simp)
      | cons c0 t =>
        have : c0 = m := by simpa using hhead
        exact ⟨t, by rw [this]⟩
    have hmlt : m < h.nodes.length :=
      List.mem_range.mp (hperm.mem_iff.mp (List.mem_cons_self _ _))
    have htail_lt : ∀ x ∈ tail, x < h.nodes.length := fun x hx =>
      List.mem_range.mp (hperm.mem_iff.mp (List.mem_cons_of_mem _ hx))
    have hmtail : m ∉ tail := (List.nodup_cons.mp hnd).1
    have hndt : tail.Nodup := (List.nodup_cons.mp hnd).2
    -- abbreviations
    set n := h.nodes.length with hn
    set newn : PNode α := ⟨k, v, 0, false, none, none, n, n⟩ with hnewn
    set ns0 := h.nodes ++ [newn] with hns0
    set ns2 := pAddNode ns0 n m with hns2
    have hlen0 : ns0.length = n + 1 := by simp [hns0]
    have hlen2 : ns2.length = n + 1 := by rw [hns2, pAddNode_length]; exact hlen0
    have hins : h.insert k v =
        ⟨ns2, if k < (nget ns2 m).key then some n else some m, h.total_nodes + 1⟩ := by
      unfold PHeap.insert
      rw [hm]
    -- pointer facts
    have hnm : n ≠ m := fun he => absurd (he ▸ hmlt) (lt_irrefl n)
    have hright := fun j => pAddNode_right ns0 n m j
      (by rw [hlen0]; exact Nat.lt_succ_of_lt hmlt) (by rw [hlen0]; exact Nat.lt_succ_self n) hnm
    have hrm : (nget ns2 m).right = n := by
      rw [hns2, hright m, if_pos rfl]
    have hold : (nget h.nodes m).right = tail.headD m := (pathB_cons_elim _ _ _ _ hrb).1
    have htailp : pathB h.nodes tail m = true := (pathB_cons_elim _ _ _ _ hrb).2
    have hrn : (nget ns2 n).right = tail.headD m := by
      rw [hns2, hright n, if_neg hnm, if_pos rfl, hns0, nget_append_lt _ _ _ hmlt]
      exact hold
    have hro : ∀ j ∈ tail, (nget ns2 j).right = (nget h.nodes j).right := by
      intro j hj
      have hjm : j ≠ m := fun he => hmtail (he ▸ hj)
      have hjn : j ≠ n := fun he => absurd (he ▸ htail_lt j hj) (lt_irrefl n)
      rw [hns2, hright j, if_neg hjm, if_neg hjn, hns0,
        nget_append_lt _ _ _ (htail_lt j hj)]
    have htail2 : pathB ns2 tail m = true := by
      rw [pathB_congr h.nodes ns2 m tail hro]
      exact htailp
    -- the components that do not depend on the new minimum
    have hcore : ∀ j, sameCore (nget ns2 j) (nget ns0 j) := fun j =>
      pAddNode_core ns0 n m j
    have hmap2 : ns2.map (fun nd => (nd.key, nd.value)) = l ++ [(k, v)] := by
      rw [map_kv_core ns0 ns2 (by rw [hlen2, hlen0]) hcore, hns0, List.map_append, hmap]
      rfl
    have hchild2 : ∀ j, j < ns2.length → (nget ns2 j).child = none := by
      intro j hj
      rw [(hcore j).2.2.2.2.2]
      have hj2 : j < n + 1 := by rw [hlen2] at hj; exact hj
      rcases Nat.lt_succ_iff_lt_or_eq.mp hj2 with hlt | heq
      · rw [hns0, nget_append_lt _ _ _ hlt]
        exact hchild j hlt
      · subst heq
        rw [hns0]
        show (nget (h.nodes ++ [newn]) h.nodes.length).child = none
        rw [nget_append_len]
    have hperm2 : ∀ c2 : List Nat, List.Perm c2 (n :: (m :: tail)) →
        List.Perm c2 (List.range ns2.length) := by
      intro c2 hp
      rw [hlen2, List.range_succ]
      exact hp.trans ((List.Perm.cons n hperm).trans (List.perm_append_singleton n (List.range n)).symm)
    have hndn : n ∉ m :: tail := by
      intro hmem
      rcases List.mem_cons.mp hmem with he | hmem2
      · exact hnm he
      · exact absurd (htail_lt n hmem2) (lt_irrefl n)
    rw [hins]
    by_cases hk : k < (nget ns2 m).key
    · rw [if_pos hk]
      refine ⟨hmap2, by rw [htot]; simp, hchild2, ?_⟩
      show ∃ c2 : List Nat, c2.head? = some n ∧ RingB ns2 c2 = true ∧
        c2.Nodup ∧ List.Perm c2 (List.range ns2.length)
      refine ⟨n :: (tail ++ [m]), rfl, ?_, ?_, ?_⟩
      · show pathB ns2 (n :: (tail ++ [m])) n = true
        refine pathB_cons ns2 n n (tail ++ [m]) ?_ ?_
        · rw [hrn]
          cases tail <;> rfl
        · rw [pathB_append_singleton, htail2, hrm, Bool.true_and]
          exact beq_self_eq_true n
      · rw [List.nodup_cons]
        refine ⟨?_, ?_⟩
        · intro hmem
          rcases List.mem_append.mp hmem with h1 | h2
          · exact absurd (htail_lt n h1) (lt_irrefl n)
          · exact hnm (List.mem_singleton.mp h2)
        · rw [List.nodup_append]
          exact ⟨hndt, List.nodup_singleton m,
            fun a ha hb => hmtail ((List.mem_singleton.mp hb) ▸ ha)⟩
      · refine hperm2 _ (List.Perm.cons n ?_)
        exact List.perm_append_singleton m tail
    · rw [if_neg hk]
      refine ⟨hmap2, by rw [htot]; simp, hchild2, ?_⟩
      show ∃ c2 : List Nat, c2.head? = some m ∧ RingB ns2 c2 = true ∧
        c2.Nodup ∧ List.Perm c2 (List.range ns2.length)
      refine ⟨m :: n :: tail, rfl, ?_, ?_, ?_⟩
      · show pathB ns2 (m :: n :: tail) m = true
        refine pathB_cons ns2 m m (n :: tail) (by rw [hrm]; rfl) ?_
        exact pathB_cons ns2 n m tail hrn htail2
      · rw [List.nodup_cons, List.nodup_cons]
        refine ⟨?_, fun hmem => absurd (htail_lt n hmem) (lt_irrefl n), hndt⟩
        intro hmem
        rcases List.mem_cons.mp hmem with he | hmem2
        · exact hnm he.symm
        · exact hmtail hmem2
      · refine hperm2 _ ?_
        exact List.Perm.swap n m tail

theorem insOnly_items (h : PHeap α) (l : List (Int × α)) (hio : InsOnly h l) :
    ∃ items : List (Int × α),
      pHeapItems h (h.nodes.length + 1) = some items ∧ List.Perm items l := by
  obtain ⟨hmap, _, hchild, hring⟩ := hio
  have hlen : h.nodes.length = l.length := by rw [← hmap, List.length_map]
  cases hm : h.min_node with
  | none =>
    have hnil : h.nodes = [] := by rw [hm] at hring; exact hring
    have hl0 : l = [] := by rw [← hmap, hnil]; rfl
    refine ⟨[], ?_, by rw [hl0]⟩
    unfold pHeapItems pRootIds
    rw [hm]
    rfl
  | some m =>
    rw [hm] at hring
    obtain ⟨c, hhead, hrb, hnd, hperm⟩ := hring
    obtain ⟨tail, rfl⟩ : ∃ tail, c = m :: tail := by
      cases c with
      | nil => exact absurd hhead (by simp)
      | cons c0 t =>
        have : c0 = m := by simpa using hhead
        exact ⟨t, by rw [this]⟩
    have hclen : tail.length + 1 = h.nodes.length := by
      have := hperm.length_eq
      simpa using this
    have hiter : pIterate h.nodes m (h.nodes.length + 1) = some (m :: tail) :=
      ring_iterate h.nodes m tail hrb hnd _ (by rw [hclen]; exact Nat.le_succ _)
    have hitems : pItemsList h.nodes (h.nodes.length + 1) (m :: tail) =
        some ((m :: tail).map fun i => ((nget h.nodes i).key, (nget h.nodes i).value)) := by
      refine pItemsList_nochild h.nodes (m :: tail) _ (by simp [hclen]) ?_
      intro x hx
      exact hchild x (List.mem_range.mp (hperm.mem_iff.mp hx))
    refine ⟨(m :: tail).map fun i => ((nget h.nodes i).key, (nget h.nodes i).value), ?_, ?_⟩
    · unfold pHeapItems pRootIds
      rw [hm]
      show (match pIterate h.nodes m (h.nodes.length + 1) with
        | none => none
        | some roots => pItemsList h.nodes (h.nodes.length + 1) roots) = _
      rw [hiter]
      exact hitems
    · have hrangemap :
          (List.range h.nodes.length).map
              (fun i => ((nget h.nodes i).key, (nget h.nodes i).value)) = l := by
        rw [← hmap]
        apply List.ext_getElem (by simp)
        intro i h1 h2
        simp only [List.getElem_map, List.getElem_range]
        rw [nget_lt h.nodes i (by simpa using h2)]
      rw [← hrangemap]
      exact hperm.map _

def pFromList (l : List (Int × α)) : PHeap α :=
  l.foldl (fun h p => h.insert p.1 p.2) PHeap.empty

theorem insOnly_foldl (l : List (Int × α)) :
    ∀ (h : PHeap α) (l0 : List (Int × α)), InsOnly h l0 →
      InsOnly (l.foldl (fun h2 p => h2.insert p.1 p.2) h) (l0 ++ l) := by
  induction l with
  | nil => intro h l0 hio; simpa using hio
  | cons p rest ih =>
    intro h l0 hio
    have := ih (h.insert p.1 p.2) (l0 ++ [p]) (insOnly_insert h l0 p.1 p.2 hio)
    simpa using this

theorem insOnly_fromList (l : List (Int × α)) : InsOnly (pFromList l) l := by
  have := insOnly_foldl l PHeap.empty [] insOnly_empty
  simpa [pFromList] using this

/-! #### The consolidation tie-break -/

theorem pRemoveNode_length (ns : List (PNode α)) (node : Nat) :
    (pRemoveNode ns node).length = ns.length := by
  unfold pRemoveNode
  simp only [modifyNode_length]

theorem pAddNode_parent (ns : List (PNode α)) (node root j : Nat) :
    (nget (pAddNode ns node root) j).parent = (nget ns j).parent :=
  (pAddNode_core ns node root j).2.2.2.2.1

/-- After `_link(node, root)` the linked node's `parent` is `root`. -/
theorem pLink_parent (ns : List (PNode α)) (node root : Nat)
    (hn : node < ns.length) (hne : node ≠ root) :
    (nget (pLink ns node root) node).parent = some root := by
  unfold pLink
  refine Eq.trans (nget_modify_parent _ _ _ _ fun n => rfl) ?_
  rw [nget_modify_other _ _ _ _ (Ne.symm hne)]
  have hp2 : (nget (modifyNode (pRemoveNode ns node) node
      fun n => { n with parent := some root }) node).parent = some root := by
    rw [nget_modify_self _ _ _ (by rw [pRemoveNode_length]; exact hn)]
  cases hc : (nget (modifyNode (pRemoveNode ns node) node
      fun n => { n with parent := some root }) root).child with
  | none =>
    dsimp only
    rw [nget_modify_other _ _ _ _ (Ne.symm hne)]
    exact hp2
  | some c =>
    dsimp only
    rw [pAddNode_parent]
    exact hp2

/-- One iteration of the `while degree_table[degree]` loop at an occupied
slot with an equal-key tie: no swap happens (`>` is strict), so the table
occupant `o2` — the earlier-encountered root — is linked *under* the node
currently being processed. -/
theorem pMeldLoop_tie (ns : List (PNode α)) (table : List (Option Nat))
    (node o2 d fuel : Nat) (ht : table.getD d none = some o2)
    (hk : (nget ns node).key = (nget ns o2).key) :
    pMeldLoop (fuel + 1) ns table node d =
      pMeldLoop fuel (pLink ns o2 node) (table.set d none) node (d + 1) := by
  have hgt : ¬ (nget ns node).key > (nget ns o2).key := by
    rw [hk]
    exact lt_irrefl _
  show (match table.getD d none with
    | none => some (ns, table, node, d)
    | some o2 =>
      pMeldLoop fuel
        (pLink ns (if (nget ns node).key > (nget ns o2).key then node else o2)
          (if (nget ns node).key > (nget ns o2).key then o2 else node))
        (table.set d none)
        (if (nget ns node).key > (nget ns o2).key then o2 else node) (d + 1)) = _
  rw [ht]
  simp only [if_neg hgt]

/-! #### Divergence of the concrete traces -/

theorem pAfterOne_div : ∀ fuel, pAfterOne.extract_min fuel = none := by
  intro fuel
  refine pExtract_none_of_child_walk pAfterOne 1 2 fuel rfl rfl ?_
  exact pIterateAux_hop pAfterOne.nodes 2 2 1 rfl (by decide)
    (pIterateAux_stuck pAfterOne.nodes 2 1 rfl (by decide)) fuel

theorem pAfterFour_iter : ∀ fuel, pIterate pAfterFour.nodes 1 fuel = none :=
  fun fuel => pIterateAux_hop pAfterFour.nodes 1 1 2 rfl (by decide)
    (pIterateAux_stuck pAfterFour.nodes 1 2 rfl (by decide)) fuel

theorem pAfter5_div : ∀ fuel, pAfter5.extract_min fuel = none := by
  intro fuel
  refine pExtract_none_of_child_walk pAfter5 1 0 fuel rfl rfl ?_
  exact pIterateAux_hop pAfter5.nodes 0 0 4 rfl (by decide)
    (pIterateAux_hop pAfter5.nodes 0 4 1 rfl (by decide)
      (pIterateAux_stuck pAfter5.nodes 0 1 rfl (by decide))) fuel

theorem pAfterOne_reach : PReachable pAfterOne :=
  PReachable.extract pScenario3 9 (some 0) pAfterOne
    (PReachable.insert _ _ _ (PReachable.insert _ _ _
      (PReachable.insert _ _ _ PReachable.empty))) pAfterOne_eval

theorem pAfterFour_reach : PReachable pAfterFour :=
  PReachable.extract pScenario4 9 (some 0) pAfterFour
    (PReachable.insert _ _ _ (PReachable.insert _ _ _ (PReachable.insert _ _ _
      (PReachable.insert _ _ _ PReachable.empty)))) pAfterFour_eval


/-! ### Task manager (src/task_manager.py) -/

/-- A task record; `__lt__` compares priorities.  Priorities are integers
(the UI parses them with `int(...)`), names and dates are strings. -/
structure Task where
  name : String
  priority : Int
  due_date : String
  status : String
deriving DecidableEq

instance : Inhabited Task := ⟨⟨"", 0, "", ""⟩⟩

/-- Coordinator state: one skip list keyed by task name and one heap keyed by
priority (`TaskManager.__init__` with no spreadsheet on disk). -/
structure TaskManager where
  skip_list : SkipList String Task
  fib_heap : PHeap Task

def TaskManager.empty : TaskManager := ⟨SkipList.empty _ _ 16, PHeap.empty⟩

/-- `TaskManager.add_task`: search the index by name; on a hit with the same
due date the user is prompted (`resp` is the reply, `True` = "yes") and a
negative reply aborts; otherwise the task is inserted into both structures.
`rlvl` is the level draw passed through to the skip list. -/
def TaskManager.add_task (tm : TaskManager) (t : Task) (resp : Bool)
    (rlvl : Nat) : TaskManager :=
  match tm.skip_list.search t.name with
  | some existing =>
    if existing.due_date = t.due_date && !resp then tm
    else ⟨tm.skip_list.insert t.name t rlvl, tm.fib_heap.insert t.priority t⟩
  | none => ⟨tm.skip_list.insert t.name t rlvl, tm.fib_heap.insert t.priority t⟩

/-- `TaskManager._rebuild_heap`: drain the level-0 traversal of the index and
re-insert every task into a fresh heap. -/
def rebuildHeap (sl : SkipList String Task) : PHeap Task :=
  pFromList (sl.elems.map fun e => (e.value.priority, e.value))

/-- `TaskManager.remove_task`: if the name is present, delete it from the
index and rebuild the heap from the surviving traversal. -/
def TaskManager.remove_task (tm : TaskManager) (name : String) : TaskManager :=
  match tm.skip_list.search name with
  | some _ =>
    let sl := tm.skip_list.delete name
    ⟨sl, rebuildHeap sl⟩
  | none => tm

/-- `TaskManager.complete_next_task`: extract the heap minimum and delete its
task's name from the index; `none` when the extraction itself does not
finish within the fuel. -/
def TaskManager.complete_next_task (tm : TaskManager) (fuel : Nat) :
    Option (Option Task × TaskManager) :=
  match tm.fib_heap.extract_min fuel with
  | none => none
  | some (none, _) => some (none, tm)
  | some (some nid, h2) =>
    some (some (nget tm.fib_heap.nodes nid).value,
      ⟨tm.skip_list.delete (nget tm.fib_heap.nodes nid).value.name, h2⟩)

/-- The tasks held by the index, as a multiset. -/
def skipTasksMS (sl : SkipList String Task) : Multiset Task :=
  (sl.elems.map Entry.value : List Task)

/-! #### Coordinator invariant under distinct names, inserts and removals

`add_task` with a fresh name appends one node to both structures;
`remove_task` rebuilds the heap from scratch by inserts.  Neither ever calls
`_consolidate`, so the heap stays an insert-only heap with a well-formed
root ring and the stored multisets agree. -/

def TMInv (tm : TaskManager) : Prop :=
  Ordered tm.skip_list ∧
  ∃ l : List (Int × Task), InsOnly tm.fib_heap l ∧
    ((l.map Prod.snd : List Task) : Multiset Task) = skipTasksMS tm.skip_list

/-- Coordinator states reachable by `add_task` with names not already
stored, and by `remove_task`. -/
inductive TMDistinctReach : TaskManager → Prop
  | empty : TMDistinctReach TaskManager.empty
  | add (tm : TaskManager) (t : Task) (resp : Bool) (rlvl : Nat) :
      TMDistinctReach tm → tm.skip_list.search t.name = none →
      TMDistinctReach (tm.add_task t resp rlvl)
  | remove (tm : TaskManager) (name : String) :
      TMDistinctReach tm → TMDistinctReach (tm.remove_task name)

theorem tm_inv_empty : TMInv TaskManager.empty := by
  refine ⟨?_, [], insOnly_empty, rfl⟩
  show List.Pairwise _ ([] : List (Entry String Task))
  exact List.Pairwise.nil

theorem tm_inv_add (tm : TaskManager) (t : Task) (resp : Bool) (rlvl : Nat)
    (hinv : TMInv tm) (hs : tm.skip_list.search t.name = none) :
    TMInv (tm.add_task t resp rlvl) := by
  obtain ⟨hord, l, hio, hms⟩ := hinv
  have hred : tm.add_task t resp rlvl =
      ⟨tm.skip_list.insert t.name t rlvl, tm.fib_heap.insert t.priority t⟩ := by
    unfold TaskManager.add_task
    rw [hs]
  rw [hred]
  refine ⟨insert_ordered tm.skip_list hord t.name t rlvl,
    l ++ [(t.priority, t)], insOnly_insert _ _ _ _ hio, ?_⟩
  have hperm := insert_elems_perm tm.skip_list hord t.name t rlvl
  have h2 : skipTasksMS (tm.skip_list.insert t.name t rlvl) =
      t ::ₘ skipTasksMS tm.skip_list := by
    unfold skipTasksMS
    rw [Multiset.coe_eq_coe.mpr (hperm.map Entry.value)]
    rfl
  rw [h2, ← hms]
  have hmap2 : ((l ++ [(t.priority, t)]).map Prod.snd : List Task) =
      l.map Prod.snd ++ [t] := by
    rw [List.map_append]
    rfl
  rw [hmap2, Multiset.coe_eq_coe.mpr (List.perm_append_singleton t (l.map Prod.snd))]
  rfl

theorem tm_inv_remove (tm : TaskManager) (name : String) (hinv : TMInv tm) :
    TMInv (tm.remove_task name) := by
  obtain ⟨hord, l, hio, hms⟩ := hinv
  unfold TaskManager.remove_task
  cases hs : tm.skip_list.search name with
  | none => exact ⟨hord, l, hio, hms⟩
  | some x =>
    dsimp only
    refine ⟨delete_ordered tm.skip_list name hord,
      (tm.skip_list.delete name).elems.map fun e => (e.value.priority, e.value),
      ?_, ?_⟩
    · show InsOnly (rebuildHeap (tm.skip_list.delete name))
        ((tm.skip_list.delete name).elems.map fun e => (e.value.priority, e.value))
      exact insOnly_fromList _
    · unfold skipTasksMS
      rw [List.map_map]
      rfl

theorem tm_reach_inv (tm : TaskManager) (hr : TMDistinctReach tm) : TMInv tm := by
  induction hr with
  | empty => exact tm_inv_empty
  | add tm t resp rlvl hr hs ih => exact tm_inv_add tm t resp rlvl ih hs
  | remove tm name hr ih => exact tm_inv_remove tm name ih

/-! #### Concrete evaluation of string-keyed coordinator states

`String.lt` on literals does not reduce definitionally, so concrete
coordinator states are evaluated through the descent lemmas: in the states
of interest every stored key equals the probed key "A", and the descent then
never advances (`advanceAux_of_ge` with `lt_irrefl`). -/

/-- The first counterexample task: name "A", priority 1. -/
def taskA1 : Task := ⟨"A", 1, "d1", "Incomplete"⟩

/-- The second counterexample task: same name "A", priority 2, other due
date. -/
def taskA2 : Task := ⟨"A", 2, "d2", "Incomplete"⟩

theorem descendPos_allEq (ts : List (Entry String Task))
    (hts : ∀ e ∈ ts, e.key = "A") :
    ∀ lvl : Nat, descendPos ts "A" lvl 0 = 0 := by
  have hge : ∀ e ∈ ts, ¬ e.key < "A" := fun e he => by
    rw [hts e he]; exact lt_irrefl _
  have hadv : ∀ i, advance ts "A" i 0 = 0 := by
    intro i
    rw [advance, List.drop_zero]
    exact advanceAux_of_ge "A" i ts 0 0 hge
  intro lvl
  induction lvl with
  | zero => exact hadv 0
  | succ l ih =>
    show descendPos ts "A" l (advance ts "A" (l + 1) 0) = 0
    rw [hadv (l + 1)]
    exact ih

theorem search_allEq (sl : SkipList String Task)
    (hall : ∀ e ∈ sl.elems, e.key = "A") (x : Entry String Task)
    (hx : sl.elems.head? = some x) : sl.search "A" = some x.value := by
  rw [SkipList.search, descendPos_allEq sl.elems hall sl.level]
  cases hsl : sl.elems with
  | nil => rw [hsl] at hx; exact Option.noConfusion hx
  | cons e rest =>
    rw [hsl] at hx
    have hex : e = x := by simpa using hx
    subst hex
    have hek : e.key = "A" := hall e (by rw [hsl]; exact List.mem_cons_self _ _)
    simp [hek]

theorem insert_allEq (sl : SkipList String Task)
    (hall : ∀ e ∈ sl.elems, e.key = "A") (t : Task) (rlvl : Nat) :
    sl.insert "A" t rlvl =
      ⟨sl.maxLevel, max sl.level (min rlvl sl.maxLevel),
        ⟨"A", t, min rlvl sl.maxLevel⟩ :: sl.elems⟩ := by
  rw [SkipList.insert, descendPos_allEq sl.elems hall sl.level]
  simp

theorem delete_allEq (sl : SkipList String Task)
    (hall : ∀ e ∈ sl.elems, e.key = "A") (x : Entry String Task)
    (rest : List (Entry String Task)) (hx : sl.elems = x :: rest) :
    sl.delete "A" = ⟨sl.maxLevel, shrinkLevel rest sl.level, rest⟩ := by
  have hd0 : descendPos sl.elems "A" sl.level 0 = 0 :=
    descendPos_allEq sl.elems hall sl.level
  have hxk : x.key = "A" := hall x (by rw [hx]; exact List.mem_cons_self _ _)
  rw [SkipList.delete, hd0, hx]
  simp [hxk]

theorem add_task_dup (tm : TaskManager) (t existing : Task)
    (hsearch : tm.skip_list.search t.name = some existing)
    (hdue : existing.due_date ≠ t.due_date) (resp : Bool) (rlvl : Nat) :
    tm.add_task t resp rlvl =
      ⟨tm.skip_list.insert t.name t rlvl,
        tm.fib_heap.insert t.priority t⟩ := by
  rw [TaskManager.add_task, hsearch]
  simp [hdue]

theorem complete_eval (tm : TaskManager) (nid : Nat) (h2 : PHeap Task)
    (fuel : Nat) (hx : tm.fib_heap.extract_min fuel = some (some nid, h2)) :
    tm.complete_next_task fuel =
      some (some (nget tm.fib_heap.nodes nid).value,
        ⟨tm.skip_list.delete (nget tm.fib_heap.nodes nid).value.name, h2⟩) := by
  unfold TaskManager.complete_next_task
  rw [hx]

/-- C4 counterexample state: two tasks named "A" with different due dates
(the second is added without any prompt, since the due dates differ), then
one `complete_next_task`. -/
def tmCex : TaskManager :=
  ((((TaskManager.empty.add_task taskA1 false 0).add_task taskA2 false
      0).complete_next_task 9).getD (none, TaskManager.empty)).2

theorem tmCex_eval :
    tmCex = ⟨⟨16, 0, [⟨"A", taskA1, 0⟩]⟩,
      ⟨[⟨1, taskA1, 0, false, none, none, 1, 1⟩,
        ⟨2, taskA2, 0, false, none, none, 1, 1⟩], some 1, 1⟩⟩ := by
  have hall1 : ∀ e ∈ [(⟨"A", taskA1, 0⟩ : Entry String Task)],
      e.key = "A" := by
    intro e he
    rw [List.mem_singleton.mp he]
  have hall2 : ∀ e ∈ [(⟨"A", taskA2, 0⟩ : Entry String Task),
      ⟨"A", taskA1, 0⟩], e.key = "A" := by
    intro e he
    rcases List.mem_cons.mp he with rfl | he2
    · rfl
    · rw [List.mem_singleton.mp he2]
  have h1 : TaskManager.empty.add_task taskA1 false 0 =
      ⟨⟨16, 0, [⟨"A", taskA1, 0⟩]⟩,
        ⟨[⟨1, taskA1, 0, false, none, none, 0, 0⟩], some 0, 1⟩⟩ := rfl
  have h2 : (⟨⟨16, 0, [⟨"A", taskA1, 0⟩]⟩,
      ⟨[⟨1, taskA1, 0, false, none, none, 0, 0⟩], some 0, 1⟩⟩ :
        TaskManager).add_task taskA2 false 0 =
      ⟨⟨16, 0, [⟨"A", taskA2, 0⟩, ⟨"A", taskA1, 0⟩]⟩,
        ⟨[⟨1, taskA1, 0, false, none, none, 1, 1⟩,
          ⟨2, taskA2, 0, false, none, none, 0, 0⟩], some 0, 2⟩⟩ := by
    rw [add_task_dup
      ⟨⟨16, 0, [⟨"A", taskA1, 0⟩]⟩,
        ⟨[⟨1, taskA1, 0, false, none, none, 0, 0⟩], some 0, 1⟩⟩ taskA2 taskA1
      (search_allEq ⟨16, 0, [⟨"A", taskA1, 0⟩]⟩ hall1
        ⟨"A", taskA1, 0⟩ rfl) (by decide) false 0]
    rw [show taskA2.name = "A" from rfl]
    rw [insert_allEq _ hall1 taskA2 0]
    rfl
  have h3 : (⟨⟨16, 0, [⟨"A", taskA2, 0⟩, ⟨"A", taskA1, 0⟩]⟩,
      ⟨[⟨1, taskA1, 0, false, none, none, 1, 1⟩,
        ⟨2, taskA2, 0, false, none, none, 0, 0⟩], some 0, 2⟩⟩ :
        TaskManager).complete_next_task 9 =
      some (some taskA1,
        ⟨⟨16, 0, [⟨"A", taskA1, 0⟩]⟩,
          ⟨[⟨1, taskA1, 0, false, none, none, 1, 1⟩,
            ⟨2, taskA2, 0, false, none, none, 1, 1⟩], some 1, 1⟩⟩) := by
    rw [complete_eval
      ⟨⟨16, 0, [⟨"A", taskA2, 0⟩, ⟨"A", taskA1, 0⟩]⟩,
        ⟨[⟨1, taskA1, 0, false, none, none, 1, 1⟩,
          ⟨2, taskA2, 0, false, none, none, 0, 0⟩], some 0, 2⟩⟩ 0
      ⟨[⟨1, taskA1, 0, false, none, none, 1, 1⟩,
        ⟨2, taskA2, 0, false, none, none, 1, 1⟩], some 1, 1⟩ 9 (by decide)]
    rw [show (nget ([⟨1, taskA1, 0, false, none, none, 1, 1⟩,
      ⟨2, taskA2, 0, false, none, none, 0, 0⟩] : List (PNode Task)) 0).value = taskA1
      from rfl]
    rw [show taskA1.name = "A" from rfl]
    rw [delete_allEq ⟨16, 0, [⟨"A", taskA2, 0⟩, ⟨"A", taskA1, 0⟩]⟩ hall2
      ⟨"A", taskA2, 0⟩ [⟨"A", taskA1, 0⟩] rfl]
    rfl
  show ((((TaskManager.empty.add_task taskA1 false 0).add_task taskA2 false
      0).complete_next_task 9).getD (none, TaskManager.empty)).2 = _
  rw [h1, h2, h3]
  rfl

/-- Witness state for the amended membership claim: a single task with a
fresh name. -/
def tmW : TaskManager :=
  TaskManager.empty.add_task ⟨"W", 3, "d", "Incomplete"⟩ false 0


/-! ### Claim theorems -/

/-- C1: the claimed min-correctness fails as stated: the heap state reached
by inserting priorities 1, 2, 3 and extracting once is non-empty (its `min`
pointer is set), but `extract_min` on it never returns for any fuel —
`_link` left the sole child's ring unclosed, so `_iterate_list(min.child)`
walks N3 → N2 → N2 → … and never revisits its head — hence there is no
post-extraction state in which the removed minimum could be checked absent
or a new minimum compared against the rest. -/
theorem fibheap_min_extract_diverges :
    PReachable pAfterOne ∧ pAfterOne.min_node.isSome = true ∧
      ∀ fuel, pAfterOne.extract_min fuel = none :=
  ⟨pAfterOne_reach, rfl, pAfterOne_div⟩

/-- C2: the root-ring invariant fails on a reachable state: after inserting
priorities 1, 2, 3, 4 and extracting once, `_consolidate`'s rebuild calls
`_add_node` on a survivor still inside the existing ring, leaving
`min.right = N3` with `N3.right = N3`; iterating right-pointers from the
`min` pointer then never returns to the start, so the ring does not visit
every root exactly once and return. -/
theorem fibheap_ring_broken :
    PReachable pAfterFour ∧ pAfterFour.min_node = some 1 ∧
      ∀ fuel, pIterate pAfterFour.nodes 1 fuel = none :=
  ⟨pAfterFour_reach, rfl, pAfterFour_iter⟩

/-- C3: in the [5,3,4,2,3] / "A".."E" scenario the first `extract_min`
returns "D" (priority 2) as claimed, but the second `extract_min` never
returns for any fuel: the child walk of the new minimum "B" follows the
stale pointers A → E → B → B → … and never returns to its head, so the
scenario's second extraction and final priority-4 peek never happen. -/
theorem heap_scenario_diverges :
    pScenario5.extract_min 19 = some (some 3, pAfter5) ∧
      (nget pScenario5.nodes 3).key = 2 ∧
      (nget pScenario5.nodes 3).value = "D" ∧
      ∀ fuel, pAfter5.extract_min fuel = none :=
  ⟨pAfter5_eval, by decide, by decide, pAfter5_div⟩

/-- C4 counterexample: with two tasks named "A" (different due dates, so the
second is inserted without a prompt), `complete_next_task` extracts the
priority-1 task from the heap but `skip_list.delete("A")` removes the most
recently inserted "A" — the priority-2 task — from the index; afterwards the
index holds the priority-1 task while the heap's reachable items are
exactly the priority-2 task, so the two sets differ. -/
theorem tm_membership_cex :
    skipTasksMS tmCex.skip_list = {taskA1} ∧
      pHeapItems tmCex.fib_heap (tmCex.fib_heap.nodes.length + 1) =
        some [(2, taskA2)] ∧
      ¬ (([(2, taskA2)].map Prod.snd : List Task) : Multiset Task) =
          ({taskA1} : Multiset Task) := by
  rw [tmCex_eval]
  exact ⟨by decide, by decide, by decide⟩

/-- C4 amended: for every coordinator state reachable by `add_task` calls
whose task name is not already stored and by `remove_task` calls (the
operations that never consolidate the heap), the items reachable in the
heap via the root list and all descendants form a defined traversal whose
multiset — hence set — of tasks equals the index traversal's. -/
theorem tm_membership_distinct (tm : TaskManager) (hr : TMDistinctReach tm) :
    ∃ items : List (Int × Task),
      pHeapItems tm.fib_heap (tm.fib_heap.nodes.length + 1) = some items ∧
        ((items.map Prod.snd : List Task) : Multiset Task) =
          skipTasksMS tm.skip_list := by
  obtain ⟨hord, l, hio, hms⟩ := tm_reach_inv tm hr
  obtain ⟨items, hit, hperm⟩ := insOnly_items tm.fib_heap l hio
  refine ⟨items, hit, ?_⟩
  rw [← hms]
  exact Multiset.coe_eq_coe.mpr (hperm.map Prod.snd)

/-- Witness for C4 (amended) after one fresh-name add. -/
theorem tm_membership_distinct_witness :
    ∃ items : List (Int × Task),
      pHeapItems tmW.fib_heap (tmW.fib_heap.nodes.length + 1) = some items ∧
        ((items.map Prod.snd : List Task) : Multiset Task) =
          skipTasksMS tmW.skip_list :=
  tm_membership_distinct tmW
    (TMDistinctReach.add TaskManager.empty ⟨"W", 3, "d", "Incomplete"⟩ false 0
      TMDistinctReach.empty rfl)

/-- C5: termination fails: `insert 1; insert 2; insert 3; extract_min`
completes (returning the key-1 node), but the next `extract_min` never
terminates for any fuel — its `_iterate_list(min.child)` ring walk never
returns to its head, because `_link` left the detached child's `right`
pointing into the old root ring. -/
theorem fibheap_termination_fails :
    (pScenario3.extract_min 9).isSome = true ∧
      (nget pAfterOne.nodes 1).child = some 2 ∧
      (∀ fuel, pIterate pAfterOne.nodes 2 fuel = none) ∧
      ∀ fuel, pAfterOne.extract_min fuel = none :=
  ⟨by rw [pAfterOne_eval]; rfl, rfl,
    fun fuel => pIterateAux_hop pAfterOne.nodes 2 2 1 rfl (by decide)
      (pIterateAux_stuck pAfterOne.nodes 2 1 rfl (by decide)) fuel,
    pAfterOne_div⟩

/-- C6 counterexample: inserting key 5 twice (a sequence of inserts with a
repeated key) produces the level-0 key traversal [5, 5], which is not
strictly increasing. -/
theorem skiplist_strict_cex :
    (((SkipList.empty Int Unit 3).insert 5 () 0).insert 5 () 0).keys =
        [5, 5] ∧
      ¬ List.Sorted (· < ·)
        ((((SkipList.empty Int Unit 3).insert 5 () 0).insert 5 () 0).keys) := by
  constructor
  · rfl
  · decide

/-- C6 amended: for every OrderedIndex state reachable by inserts and
deletes (arbitrary keys, including repeated ones), the level-0 in-order
traversal yields non-decreasing keys; strict increase fails exactly when a
key is inserted more than once. -/
theorem skiplist_sorted_nondecreasing {κ α : Type} [LinearOrder κ]
    (sl : SkipList κ α) (hr : sl.Reachable) :
    List.Sorted (· ≤ ·) sl.keys := by
  have hs := reachable_ordered sl hr
  exact List.pairwise_map.mpr hs

/-- Witness for C6 (amended) at a concrete two-insert index. -/
theorem skiplist_sorted_nondecreasing_witness :
    List.Sorted (· ≤ ·)
      (((SkipList.empty Int Unit 3).insert 3 () 1).insert 1 () 0).keys :=
  skiplist_sorted_nondecreasing _ (SkipList.Reachable.insert 1 () 0
    (SkipList.Reachable.insert 3 () 1 (SkipList.Reachable.empty 3)))

/-- C7: insert any batch of triples with pairwise distinct keys (in any
order, with any level draws), then delete any batch of keys: every deleted
key searches to not-found, and every inserted key that was not deleted still
searches to its inserted value. -/
theorem skiplist_search_delete_correct {κ α : Type} [LinearOrder κ] (L : Nat)
    (ins : List (κ × α × Nat)) (hnd : (ins.map (fun e => e.1)).Nodup)
    (dels : List κ) :
    (∀ k ∈ dels,
        (deleteAll dels (insertAll ins (SkipList.empty κ α L))).search k =
          none) ∧
      ∀ e ∈ ins, e.1 ∉ dels →
        (deleteAll dels (insertAll ins (SkipList.empty κ α L))).search e.1 =
          some e.2.1 := by
  obtain ⟨i1, i2, _, i4, _⟩ := insertAll_spec ins (SkipList.empty κ α L)
    List.Pairwise.nil List.nodup_nil hnd
    (fun e _ => List.not_mem_nil _)
  obtain ⟨_, _, d3, d4⟩ := deleteAll_spec dels _ i1 i2
  refine ⟨d3, ?_⟩
  intro e he hnotin
  rw [d4 e.1 hnotin]
  exact i4 e he

/-- Witness for C7 with keys {1, 2} and deletion of key 1. -/
theorem skiplist_search_delete_correct_witness :
    (([((1 : Int), "u", 0), (2, "v", 1)].map (fun e => e.1)).Nodup) ∧
      ((∀ k ∈ [(1 : Int)],
          (deleteAll [(1 : Int)] (insertAll [((1 : Int), "u", 0), (2, "v", 1)]
            (SkipList.empty Int String 2))).search k = none) ∧
        ∀ e ∈ [((1 : Int), "u", 0), (2, "v", 1)], e.1 ∉ [(1 : Int)] →
          (deleteAll [(1 : Int)] (insertAll [((1 : Int), "u", 0), (2, "v", 1)]
            (SkipList.empty Int String 2))).search e.1 = some e.2.1) :=
  ⟨by decide,
    skiplist_search_delete_correct 2 [((1 : Int), "u", 0), (2, "v", 1)]
      (by decide) [(1 : Int)]⟩

/-- C9: deleting a key that is not present leaves the entire index state
(all links and the current level) unchanged and raises no error, and
searching an absent key returns a plain not-found result. -/
theorem skiplist_delete_absent_noop {κ α : Type} [LinearOrder κ]
    (sl : SkipList κ α) (k : κ) (hk : k ∉ sl.keys) :
    sl.delete k = sl ∧ sl.search k = none :=
  ⟨delete_absent sl k hk, search_absent sl k hk⟩

/-- Witness for C9: deleting 5 from an index holding only key 1. -/
theorem skiplist_delete_absent_noop_witness :
    ((5 : Int) ∉ ((SkipList.empty Int String 3).insert 1 "u" 0).keys) ∧
      (((SkipList.empty Int String 3).insert 1 "u" 0).delete 5 =
          (SkipList.empty Int String 3).insert 1 "u" 0 ∧
        ((SkipList.empty Int String 3).insert 1 "u" 0).search 5 = none) :=
  ⟨by decide, skiplist_delete_absent_noop _ 5 (by decide)⟩

/-- C10: on any reachable index, inserting key `k` splices the new node
directly after the entries with keys strictly below `k` — hence immediately
before every existing node with key `k`; a subsequent search for `k` returns
the newly inserted value; and a single delete of `k` removes exactly the
newly inserted node, restoring the previous traversal. -/
theorem skiplist_duplicate_insert {κ α : Type} [LinearOrder κ]
    (sl : SkipList κ α) (hr : sl.Reachable) (k : κ) (v : α) (rlvl : Nat) :
    (sl.insert k v rlvl).elems =
        sl.elems.takeWhile (belowK k) ++
          (⟨k, v, min rlvl sl.maxLevel⟩ : Entry κ α) ::
            sl.elems.dropWhile (belowK k) ∧
      (∀ e ∈ sl.elems.takeWhile (belowK k), e.key < k) ∧
      (sl.insert k v rlvl).search k = some v ∧
      ((sl.insert k v rlvl).delete k).elems = sl.elems := by
  have hs := reachable_ordered sl hr
  have hs2 := insert_ordered sl hs k v rlvl
  refine ⟨insert_elems_sorted sl hs k v rlvl, takeWhile_below sl.elems k,
    ?_, ?_⟩
  · rw [insert_search sl hs k v rlvl k, if_pos rfl]
  · have hk1 : k ∈ (sl.insert k v rlvl).keys :=
      (insert_keys_mem sl hs k v rlvl k).mpr (Or.inl rfl)
    obtain ⟨x, dtl, hD, hxk, hdel⟩ := delete_elems_mem _ hs2 k hk1
    have hmid := takeWhile_mid (belowK k) (sl.elems.takeWhile (belowK k))
      (⟨k, v, min rlvl sl.maxLevel⟩ : Entry κ α)
      (sl.elems.dropWhile (belowK k))
      (fun e he => by
        simpa [belowK] using takeWhile_below sl.elems k e he)
      (by simp [belowK])
    rw [insert_elems_sorted sl hs k v rlvl] at hD hdel
    rw [hmid.2] at hD
    rw [hmid.1] at hdel
    injection hD with hD1 hD2
    rw [hdel, ← hD2, List.takeWhile_append_dropWhile]

/-- Witness for C10: inserting a duplicate of key 5 and deleting it. -/
theorem skiplist_duplicate_insert_witness :
    (((SkipList.empty Int String 3).insert 5 "a" 0).insert 5 "b" 1).elems =
        ((SkipList.empty Int String 3).insert 5 "a" 0).elems.takeWhile
            (belowK 5) ++
          (⟨5, "b", min 1 ((SkipList.empty Int String 3).insert 5 "a"
              0).maxLevel⟩ : Entry Int String) ::
            ((SkipList.empty Int String 3).insert 5 "a" 0).elems.dropWhile
              (belowK 5) ∧
      (∀ e ∈ ((SkipList.empty Int String 3).insert 5 "a"
          0).elems.takeWhile (belowK 5), e.key < 5) ∧
      (((SkipList.empty Int String 3).insert 5 "a" 0).insert 5 "b"
          1).search 5 = some "b" ∧
      ((((SkipList.empty Int String 3).insert 5 "a" 0).insert 5 "b"
          1).delete 5).elems =
        ((SkipList.empty Int String 3).insert 5 "a" 0).elems :=
  skiplist_duplicate_insert _ (SkipList.Reachable.insert 5 "a" 0
    (SkipList.Reachable.empty 3)) 5 "b" 1

/-- The node store of the C8 scenario after `_remove_node(min)` — the state
whose ring `_consolidate` snapshots. -/
def pTieRemoved : List (PNode String) := pRemoveNode pTie.nodes 0

/-- C8 counterexample: priorities (0,"r"), (1,"A"), (1,"B"); extracting "r"
consolidates the two equal-degree, equal-priority roots.  The consolidation
snapshot visits "B" (id 2) first — so "B" occupies the degree-0 table
slot — and "A" (id 1) second; the swap tests strict `>`, so on the tie no
swap happens and `_link("B", "A")` runs: the slot occupant "B" becomes the
CHILD (its `parent` is "A") and the later-encountered "A" stays the root,
contradicting the claim that the first root remains the parent. -/
theorem consolidate_tie_cex :
    pTie.extract_min 19 = some (some 0, pTieAfter) ∧
      (nget pTieRemoved 0).right = 2 ∧
      pIterate pTieRemoved 2 19 = some [2, 1] ∧
      (nget pTie.nodes 1).key = (nget pTie.nodes 2).key ∧
      (nget pTie.nodes 1).value = "A" ∧ (nget pTie.nodes 2).value = "B" ∧
      pTieAfter.min_node = some 1 ∧
      (nget pTieAfter.nodes 2).parent = some 1 ∧
      (nget pTieAfter.nodes 1).child = some 2 ∧
      (nget pTieAfter.nodes 1).parent = none :=
  ⟨pTieAfter_eval, by decide, by decide, by decide, by decide, by decide,
    rfl, by decide, by decide, by decide⟩

/-- C8 amended: in `_consolidate`'s inner loop, at an occupied slot whose
occupant's priority equals the current root's, no swap occurs (the test is
strict `>`) and the occupant — the earlier-encountered root — is linked
under the current, later-encountered root, whose `parent` pointer it takes;
the claim's parent/child direction is reversed. -/
theorem consolidate_tie_later_parent {α : Type} [Inhabited α]
    (ns : List (PNode α)) (table : List (Option Nat)) (node o2 d fuel : Nat)
    (ht : table.getD d none = some o2)
    (hk : (nget ns node).key = (nget ns o2).key)
    (ho : o2 < ns.length) (hne : o2 ≠ node) :
    pMeldLoop (fuel + 1) ns table node d =
        pMeldLoop fuel (pLink ns o2 node) (table.set d none) node (d + 1) ∧
      (nget (pLink ns o2 node) o2).parent = some node :=
  ⟨pMeldLoop_tie ns table node o2 d fuel ht hk, pLink_parent ns o2 node ho hne⟩

/-- Two degree-0 roots with equal keys, for the C8 witness. -/
def tieNs : List (PNode Unit) :=
  [⟨1, (), 0, false, none, none, 0, 0⟩, ⟨1, (), 0, false, none, none, 1, 1⟩]

/-- Witness for C8 (amended) at a concrete two-root tie. -/
theorem consolidate_tie_later_parent_witness :
    (([some 0] : List (Option Nat)).getD 0 none = some 0 ∧
        (nget tieNs 1).key = (nget tieNs 0).key ∧ 0 < tieNs.length ∧
        (0 : Nat) ≠ 1) ∧
      (pMeldLoop 1 tieNs [some 0] 1 0 =
          pMeldLoop 0 (pLink tieNs 0 1) ([some 0].set 0 none) 1 1 ∧
        (nget (pLink tieNs 0 1) 0).parent = some 1) :=
  ⟨by decide, consolidate_tie_later_parent tieNs [some 0] 1 0 0 0 (by decide)
    (by decide) (by decide) (by decide)⟩

end DTM
